import Mathlib

/-!
Verification development for a distributed read-through groupcache-style
key/value cache.  The Lean definitions below are shallow embeddings of the
program's Go source:

* `ByteView` — immutable dual-representation byte payload (byteview source);
* `Lru.Cache` — the LRU segment (`lru/lru.go`);
* `Groupcache.cache` / `Group` — byte-accounting wrapper, two-segment group
  engine, eviction loop, and load path (`groupcache.go`);
* `Consistenthash.Map` — hash ring with virtual replicas
  (`consistenthash/consistenthash.go`);
* `Peermanager.PeerStore` — peer table pruning
  (`internal/app/peermanager/client.go`);
* `Singleflight` — an interleaving model of the flight collapser
  (`singleflight/singleflight.go`).

Go byte slices are modelled as `List Nat`, `int64` values as `Int`, maps as
association lists, and fallible results as `Except`/`Option`.
-/

namespace Groupcache

/-- `ByteView` holds an immutable view of bytes.  As in the source, it wraps
either a byte slice `b` (used when non-nil, i.e. `some`) or a string `s`. -/
structure ByteView where
  b : Option (List Nat)
  s : List Nat
deriving DecidableEq, Repr, Inhabited

/-- `Len` returns the view's length: `len(v.b)` if `b` is non-nil, else
`len(v.s)`. -/
def ByteView.Len (v : ByteView) : Nat :=
  match v.b with
  | some bb => bb.length
  | none => v.s.length

/-- The payload a view exposes (whichever representation is populated). -/
def ByteView.data (v : ByteView) : List Nat :=
  match v.b with
  | some bb => bb
  | none => v.s

/-- Go's built-in `copy(dest, src)`: copies `min (len dest) (len src)` bytes
into the front of `dest` and returns the count together with the updated
destination buffer. -/
def goCopy (dest src : List Nat) : Nat × List Nat :=
  let n := min dest.length src.length
  (n, src.take n ++ dest.drop n)

/-- `SliceFrom` slices the view from the provided index until the end,
staying in whichever representation is populated. -/
def ByteView.SliceFrom (v : ByteView) (i : Nat) : ByteView :=
  match v.b with
  | some bb => { b := some (bb.drop i), s := [] }
  | none => { b := none, s := v.s.drop i }

/-- `Copy` copies the view's bytes into `dest`, returning the number of bytes
copied and the updated destination buffer. -/
def ByteView.Copy (v : ByteView) (dest : List Nat) : Nat × List Nat :=
  match v.b with
  | some bb => goCopy dest bb
  | none => goCopy dest v.s

/-- Errors surfaced by the embedded operations.  `msg` models an opaque Go
error value (loader errors, transport errors, user errors); equality of
constructors models Go error identity. -/
inductive GoError where
  | invalidOffset
  | eof
  | msg (s : String)
deriving DecidableEq, Repr

/-- `ReadAt` implements `io.ReaderAt`: negative offsets are an error, offsets
past the end yield `io.EOF` with zero bytes, otherwise bytes are copied from
offset `off` onward and `io.EOF` accompanies a short read. -/
def ByteView.ReadAt (v : ByteView) (p : List Nat) (off : Int) : Nat × List Nat × Option GoError :=
  if off < 0 then (0, p, some GoError.invalidOffset)
  else if (v.Len : Int) ≤ off then (0, p, some GoError.eof)
  else
    let r := (v.SliceFrom off.toNat).Copy p
    (r.1, r.2, if r.1 < p.length then some GoError.eof else none)

theorem ByteView.data_length (v : ByteView) : v.data.length = v.Len := by
  cases v with
  | mk b s => cases b <;> rfl

theorem ByteView.sliceFrom_data (v : ByteView) (i : Nat) :
    (v.SliceFrom i).data = v.data.drop i := by
  cases v with
  | mk b s => cases b <;> rfl

theorem ByteView.copy_eq (v : ByteView) (dest : List Nat) :
    v.Copy dest = goCopy dest v.data := by
  cases v with
  | mk b s => cases b <;> rfl

/-- C9: for every byte view `v`, destination buffer `p` and offset `off`,
`ReadAt p off` returns an error when `off < 0`; returns end-of-input (EOF
with 0 bytes) when `off ≥ v.Len`; and otherwise copies
`min (len p) (v.Len − off)` bytes of `v` starting at `off` into `p`,
returning EOF alongside the count exactly when fewer than `len p` bytes were
copied. -/
theorem C9_byteview_readAt (v : ByteView) (p : List Nat) (off : Int) :
    (off < 0 → v.ReadAt p off = (0, p, some GoError.invalidOffset)) ∧
    (0 ≤ off → (v.Len : Int) ≤ off → v.ReadAt p off = (0, p, some GoError.eof)) ∧
    (0 ≤ off → off < (v.Len : Int) →
      (v.ReadAt p off).1 = min p.length (v.Len - off.toNat) ∧
      (v.ReadAt p off).2.1 =
        (v.data.drop off.toNat).take (min p.length (v.Len - off.toNat)) ++
          p.drop (min p.length (v.Len - off.toNat)) ∧
      (v.ReadAt p off).2.2 =
        if min p.length (v.Len - off.toNat) < p.length then some GoError.eof else none) := by
  refine ⟨?_, ?_, ?_⟩
  · intro h
    simp only [ByteView.ReadAt, if_pos h]
  · intro hnn hle
    have h0 : ¬ off < 0 := not_lt.mpr hnn
    simp only [ByteView.ReadAt, if_neg h0, if_pos hle]
  · intro hnn hlt
    have h0 : ¬ off < 0 := not_lt.mpr hnn
    have h1 : ¬ (v.Len : Int) ≤ off := not_le.mpr hlt
    have hlen : (v.data.drop off.toNat).length = v.Len - off.toNat := by
      rw [List.length_drop, ByteView.data_length]
    refine ⟨?_, ?_, ?_⟩ <;>
      simp only [ByteView.ReadAt, if_neg h0, if_neg h1, ByteView.copy_eq,
        ByteView.sliceFrom_data, goCopy, hlen]

theorem C9_byteview_readAt_witness :
    ((⟨some [10, 20, 30], []⟩ : ByteView).ReadAt [0, 0] 1).1 = 2 ∧
    ((⟨some [10, 20, 30], []⟩ : ByteView).ReadAt [0, 0] 1).2.1 = [20, 30] ∧
    ((⟨some [10, 20, 30], []⟩ : ByteView).ReadAt [0, 0] 1).2.2 = none := by
  have h := (C9_byteview_readAt ⟨some [10, 20, 30], []⟩ [0, 0] 1).2.2
    (by decide) (by decide)
  exact ⟨h.1.trans (by decide), (h.2.1).trans (by decide), (h.2.2).trans (by decide)⟩

/-! ## LRU segment (`lru/lru.go`) -/

namespace Lru

/-- One element of the recency list: the source stores `entry{key, value}`
inside `container/list` elements, most recently used at the front. -/
structure entry where
  key : String
  value : Groupcache.ByteView
deriving DecidableEq, Repr

/-- `lru.Cache`.  `ll` is the recency-ordered list (front = most recently
used); `cache` is the key set of the index map from key to list element.
The map's values are pointers into `ll`, so the model keeps the key set and
resolves the pointed-to element through `ll`.  A nil map/list is modelled by
the empty cache, matching the re-initialising nil checks in the source. -/
structure Cache where
  MaxEntries : Nat
  ll : List entry
  cache : List String
deriving DecidableEq, Repr

instance : Inhabited Cache := ⟨⟨0, [], []⟩⟩

/-- `RemoveOldest` removes the element at the back of the recency list and
deletes its key from the index.  The removed entry is handed to the optional
`OnEvicted` callback; here it is returned as the second component so the
caller can apply the callback's effect. -/
def Cache.RemoveOldest (c : Cache) : Cache × List entry :=
  match c.ll.getLast? with
  | none => (c, [])
  | some e => ({ c with ll := c.ll.dropLast, cache := c.cache.erase e.key }, [e])

/-- `Add`: a key already present in the index map has its element moved to
the front with the new value; a fresh key is pushed at the front and
indexed; afterwards, when `MaxEntries` is non-zero and exceeded, the oldest
entry is removed. -/
def Cache.Add (c : Cache) (key : String) (value : Groupcache.ByteView) : Cache × List entry :=
  if c.cache.contains key then
    ({ c with ll := ⟨key, value⟩ :: c.ll.eraseP (fun e => e.key == key) }, [])
  else
    let c1 : Cache := { c with ll := ⟨key, value⟩ :: c.ll, cache := key :: c.cache }
    if c1.MaxEntries ≠ 0 ∧ c1.ll.length > c1.MaxEntries then c1.RemoveOldest else (c1, [])

/-- `Get`: a hit (key present in the index map) moves the element to the
front and returns its value; a miss leaves the cache unchanged. -/
def Cache.Get (c : Cache) (key : String) : Cache × Option Groupcache.ByteView :=
  if c.cache.contains key then
    match c.ll.find? (fun e => e.key == key) with
    | some e => ({ c with ll := e :: c.ll.eraseP (fun x => x.key == key) }, some e.value)
    | none => (c, none)
  else (c, none)

/-- `Len` returns the number of items in the cache. -/
def Cache.Len (c : Cache) : Nat := c.ll.length

/-- Index-vs-order well-formedness of an LRU cache: the index map's key set
is the recency list's key multiset, and—being a map—has no duplicates. -/
def Cache.WFkeys (c : Cache) : Prop :=
  c.cache.Perm (c.ll.map entry.key) ∧ c.cache.Nodup

end Lru

/-! ### List helpers -/

theorem find?_cons_eraseP_perm {α : Type _} (p : α → Bool) :
    ∀ (l : List α) (e : α), l.find? p = some e → (e :: l.eraseP p).Perm l := by
  intro l
  induction l with
  | nil => intro e h; simp at h
  | cons a t ih =>
    intro e h
    by_cases hp : p a
    · rw [List.find?_cons_of_pos _ hp] at h
      cases h
      rw [List.eraseP_cons_of_pos hp]
    · rw [List.find?_cons_of_neg _ hp] at h
      rw [List.eraseP_cons_of_neg hp]
      exact (List.Perm.swap a e _).trans ((ih e h).cons a)

theorem getLast?_decomp {α : Type _} {l : List α} {e : α} (h : l.getLast? = some e) :
    l = l.dropLast ++ [e] := by
  have hne : l ≠ [] := by
    intro h0
    subst h0
    simp at h
  rw [List.getLast?_eq_getLast l hne] at h
  cases h
  exact (List.dropLast_append_getLast hne).symm

/-! ### LRU operation lemmas -/

namespace Lru

theorem Cache.removeOldest_ll (c : Cache) :
    (c.RemoveOldest).1.ll = c.ll.dropLast := by
  cases hgl : c.ll.getLast? with
  | none =>
    have hnil : c.ll = [] := by
      cases hll : c.ll with
      | nil => rfl
      | cons a t =>
        rw [hll] at hgl
        rw [List.getLast?_eq_getLast _ (by simp)] at hgl
        exact absurd hgl (by simp)
    simp [Cache.RemoveOldest, hgl, hnil]
  | some e => simp [Cache.RemoveOldest, hgl]

theorem Cache.removeOldest_MaxEntries (c : Cache) :
    (c.RemoveOldest).1.MaxEntries = c.MaxEntries := by
  cases hgl : c.ll.getLast? <;> simp [Cache.RemoveOldest, hgl]

theorem Cache.removeOldest_sum (c : Cache) (f : entry → Int) :
    ((c.RemoveOldest).1.ll.map f).sum + ((c.RemoveOldest).2.map f).sum
      = (c.ll.map f).sum := by
  cases hgl : c.ll.getLast? with
  | none => simp [Cache.RemoveOldest, hgl]
  | some e =>
    have hd := getLast?_decomp hgl
    simp only [Cache.RemoveOldest, hgl]
    conv_rhs => rw [hd]
    simp

theorem Cache.removeOldest_WFkeys {c : Cache} (h : c.WFkeys) :
    (c.RemoveOldest).1.WFkeys := by
  obtain ⟨hperm, hnd⟩ := h
  cases hgl : c.ll.getLast? with
  | none =>
    refine ⟨?_, ?_⟩ <;> simp [Cache.RemoveOldest, hgl]
    · exact hperm
    · exact hnd
  | some e =>
    have hd := getLast?_decomp hgl
    have hkeys : c.ll.map entry.key = c.ll.dropLast.map entry.key ++ [e.key] := by
      conv_lhs => rw [hd]
      simp
    have hndk : (c.ll.map entry.key).Nodup := hperm.nodup hnd
    rw [hkeys] at hndk
    have hnotin : e.key ∉ c.ll.dropLast.map entry.key := by
      rcases List.nodup_append.mp hndk with ⟨-, -, hdisj⟩
      intro hmem
      exact hdisj hmem (by simp)
    refine ⟨?_, ?_⟩
    · have h1 := hperm.erase e.key
      rw [hkeys, List.erase_append_right _ hnotin] at h1
      simpa [Cache.RemoveOldest, hgl] using h1
    · simpa [Cache.RemoveOldest, hgl] using hnd.erase e.key

theorem Cache.add_fresh_eq (c : Cache) (k : String) (v : Groupcache.ByteView)
    (hfresh : c.cache.contains k = false) :
    c.Add k v =
      if c.MaxEntries ≠ 0 ∧ c.ll.length + 1 > c.MaxEntries
      then (Cache.mk c.MaxEntries (⟨k, v⟩ :: c.ll) (k :: c.cache)).RemoveOldest
      else (Cache.mk c.MaxEntries (⟨k, v⟩ :: c.ll) (k :: c.cache), []) := by
  have hcond : ¬ (c.cache.contains k = true) := by
    rw [hfresh]
    simp
  unfold Cache.Add
  rw [if_neg hcond]
  simp

theorem Cache.add_overwrite_eq (c : Cache) (k : String) (v : Groupcache.ByteView)
    (h : c.cache.contains k = true) :
    c.Add k v = ({ c with ll := ⟨k, v⟩ :: c.ll.eraseP (fun e => e.key == k) }, []) := by
  unfold Cache.Add
  rw [if_pos h]

theorem Cache.add_fresh_sum (c : Cache) (k : String) (v : Groupcache.ByteView)
    (f : entry → Int) (hfresh : c.cache.contains k = false) :
    ((c.Add k v).1.ll.map f).sum + ((c.Add k v).2.map f).sum
      = f ⟨k, v⟩ + (c.ll.map f).sum := by
  rw [Cache.add_fresh_eq c k v hfresh]
  split
  · rw [Cache.removeOldest_sum]
    simp
  · simp

theorem Cache.add_fresh_WFkeys {c : Cache} {k : String} {v : Groupcache.ByteView}
    (h : c.WFkeys) (hfresh : c.cache.contains k = false) :
    (c.Add k v).1.WFkeys := by
  obtain ⟨hperm, hnd⟩ := h
  have hk : k ∉ c.cache := by simpa using hfresh
  have hWF1 : (Cache.mk c.MaxEntries (⟨k, v⟩ :: c.ll) (k :: c.cache)).WFkeys := by
    refine ⟨?_, List.nodup_cons.mpr ⟨hk, hnd⟩⟩
    simpa using hperm.cons k
  rw [Cache.add_fresh_eq c k v hfresh]
  split
  · exact Cache.removeOldest_WFkeys hWF1
  · exact hWF1

theorem map_key_eraseP (l : List entry) (k : String) :
    (l.eraseP (fun e => e.key == k)).map entry.key = (l.map entry.key).erase k := by
  rw [List.erase_eq_eraseP, List.eraseP_map]
  have hfun : ((fun x => k == x) ∘ entry.key) = (fun e : entry => e.key == k) := by
    funext e
    simp [Function.comp, eq_comm]
  rw [hfun]

theorem Cache.add_overwrite_WFkeys {c : Cache} {k : String} {v : Groupcache.ByteView}
    (hwf : c.WFkeys) (h : c.cache.contains k = true) :
    (c.Add k v).1.WFkeys := by
  obtain ⟨hperm, hnd⟩ := hwf
  rw [Cache.add_overwrite_eq c k v h]
  refine ⟨?_, hnd⟩
  have hkmem : k ∈ c.ll.map entry.key := by
    have hmem : k ∈ c.cache := by simpa using h
    exact hperm.mem_iff.mp hmem
  have hp : c.cache.Perm (k :: (c.ll.map entry.key).erase k) :=
    hperm.trans (List.perm_cons_erase hkmem)
  simpa [map_key_eraseP] using hp

theorem Cache.get_fst_spec (c : Cache) (k : String) :
    (c.Get k).1.ll.Perm c.ll ∧ (c.Get k).1.cache = c.cache ∧
      (c.Get k).1.MaxEntries = c.MaxEntries := by
  by_cases hcm : k ∈ c.cache
  · cases hf : c.ll.find? (fun e => e.key == k) with
    | none => simp [Cache.Get, hcm, hf]
    | some e =>
      refine ⟨?_, ?_, ?_⟩ <;> simp [Cache.Get, hcm, hf]
      exact find?_cons_eraseP_perm _ _ _ hf
  · simp [Cache.Get, hcm]

theorem Cache.get_WFkeys {c : Cache} (h : c.WFkeys) (k : String) :
    (c.Get k).1.WFkeys := by
  obtain ⟨hperm, hnd⟩ := h
  obtain ⟨hp, hcache, -⟩ := Cache.get_fst_spec c k
  refine ⟨?_, ?_⟩
  · rw [hcache]
    exact hperm.trans (hp.map entry.key).symm
  · rw [hcache]
    exact hnd

end Lru

/-! ## The byte-accounting segment wrapper (`cache` in `groupcache.go`) -/

/-- Size charge of an entry: `len(key) + value.Len()` (Go string length in
bytes, hence `utf8ByteSize`). -/
def entryCharge (e : Lru.entry) : Int :=
  (e.key.utf8ByteSize : Int) + (e.value.Len : Int)

/-- The `cache` wrapper around `lru.Cache`: it adds byte accounting
(`nbytes`) and get/hit/eviction counters.  The inner LRU is nil until the
first `add` creates it with `MaxEntries = 0` and an `OnEvicted` callback
that subtracts the evicted entry's charge from `nbytes` and bumps
`nevict`. -/
structure cache where
  nbytes : Int
  lru : Option Lru.Cache
  nhit : Int
  nget : Int
  nevict : Int
deriving DecidableEq, Repr

/-- A freshly zeroed segment (nil inner LRU). -/
def cache.empty : cache := ⟨0, none, 0, 0, 0⟩

/-- Effect of the `OnEvicted` callback for a batch of evicted entries. -/
def cache.applyEvictions (c : cache) (ev : List Lru.entry) : cache :=
  { c with nbytes := c.nbytes - (ev.map entryCharge).sum,
           nevict := c.nevict + ev.length }

/-- `cache.add`: lazily create the LRU, run `lru.Add` (whose evictions fire
the `OnEvicted` callback), then charge `len(key) + value.Len()` to
`nbytes`. -/
def cache.add (c : cache) (key : String) (value : ByteView) : cache :=
  let l0 := c.lru.getD ⟨0, [], []⟩
  let r := l0.Add key value
  let c1 := c.applyEvictions r.2
  { c1 with lru := some r.1,
            nbytes := c1.nbytes + ((key.utf8ByteSize : Int) + (value.Len : Int)) }

/-- `cache.get`: bump `nget`; a nil LRU misses; a hit bumps `nhit` and
returns the view. -/
def cache.get (c : cache) (key : String) : cache × Option ByteView :=
  let c1 := { c with nget := c.nget + 1 }
  match c.lru with
  | none => (c1, none)
  | some l =>
    match l.Get key with
    | (l', some v) => ({ c1 with lru := some l', nhit := c1.nhit + 1 }, some v)
    | (l', none) => ({ c1 with lru := some l' }, none)

/-- `cache.removeOldest`: a nil LRU is left alone, otherwise the oldest
entry is removed and the eviction callback applied. -/
def cache.removeOldest (c : cache) : cache :=
  match c.lru with
  | none => c
  | some l =>
    let r := l.RemoveOldest
    let c1 := c.applyEvictions r.2
    { c1 with lru := some r.1 }

/-- `cache.bytes`. -/
def cache.bytes (c : cache) : Int := c.nbytes

/-- The entries currently held by the segment (empty for a nil LRU). -/
def cache.entries (c : cache) : List Lru.entry := (c.lru.getD ⟨0, [], []⟩).ll

/-- The key set of the segment's index map (empty for a nil LRU). -/
def cache.index (c : cache) : List String := (c.lru.getD ⟨0, [], []⟩).cache

/-- `cache.items` (`itemsLocked`): number of entries, 0 for a nil LRU. -/
def cache.items (c : cache) : Int := ((c.lru.getD ⟨0, [], []⟩).Len : Int)

/-- Byte-accounting invariant: the `nbytes` field equals the sum of the
entries' size charges. -/
def cache.bytesInv (c : cache) : Prop :=
  c.nbytes = (c.entries.map entryCharge).sum

/-- Index well-formedness of the segment's inner LRU. -/
def cache.keysInv (c : cache) : Prop := (c.lru.getD ⟨0, [], []⟩).WFkeys

/-- Full well-formedness of a segment. -/
def cache.WF (c : cache) : Prop := c.bytesInv ∧ c.keysInv

/-- One mutating segment operation, as dispatched by the group engine. -/
inductive COp where
  | add (key : String) (value : ByteView)
  | get (key : String)
  | removeOldest

/-- Apply one operation to a segment. -/
def cache.applyOp (c : cache) : COp → cache
  | COp.add k v => c.add k v
  | COp.get k => (c.get k).1
  | COp.removeOldest => c.removeOldest

/-- Apply a sequence of operations to a segment. -/
def cache.applyOps (c : cache) (ops : List COp) : cache :=
  ops.foldl cache.applyOp c

/-- Decides that no `add` in the sequence overwrites a key that is present
in the index map at the time the `add` executes. -/
def cache.noOverwrite : cache → List COp → Bool
  | _, [] => true
  | c, COp.add k v :: rest =>
    !(c.index.contains k) && cache.noOverwrite (c.add k v) rest
  | c, COp.get k :: rest => cache.noOverwrite ((c.get k).1) rest
  | c, COp.removeOldest :: rest => cache.noOverwrite c.removeOldest rest

/-! ### Segment wrapper lemmas -/

theorem entryCharge_nonneg (e : Lru.entry) : 0 ≤ entryCharge e :=
  add_nonneg (Int.natCast_nonneg _) (Int.natCast_nonneg _)

theorem cache.add_WF {c : cache} {k : String} {v : ByteView}
    (h : c.WF) (hfresh : c.index.contains k = false) : (c.add k v).WF := by
  obtain ⟨hbytes, hkeys⟩ := h
  constructor
  · show (c.add k v).nbytes = (((c.add k v).entries).map entryCharge).sum
    have hsum := Lru.Cache.add_fresh_sum (c.lru.getD ⟨0, [], []⟩) k v entryCharge hfresh
    have hb : c.nbytes = (((c.lru.getD ⟨0, [], []⟩).ll).map entryCharge).sum := hbytes
    have hcharge : entryCharge ⟨k, v⟩ = (k.utf8ByteSize : Int) + (v.Len : Int) := rfl
    show c.nbytes - ((((c.lru.getD ⟨0, [], []⟩).Add k v).2).map entryCharge).sum
        + ((k.utf8ByteSize : Int) + (v.Len : Int))
      = ((((c.lru.getD ⟨0, [], []⟩).Add k v).1.ll).map entryCharge).sum
    rw [hb, ← hcharge]
    linarith [hsum]
  · exact Lru.Cache.add_fresh_WFkeys hkeys hfresh

theorem cache.add_keysInv {c : cache} (h : c.keysInv) (k : String) (v : ByteView) :
    (c.add k v).keysInv := by
  cases hc : (c.lru.getD ⟨0, [], []⟩).cache.contains k with
  | true => exact Lru.Cache.add_overwrite_WFkeys h hc
  | false => exact Lru.Cache.add_fresh_WFkeys h hc

theorem cache.get_fst_fields (c : cache) (k : String) :
    (c.get k).1.nbytes = c.nbytes ∧ ((c.get k).1.entries).Perm c.entries ∧
      (c.get k).1.index = c.index := by
  cases hl : c.lru with
  | none => simp [cache.get, hl, cache.entries, cache.index]
  | some l =>
    have hspec := Lru.Cache.get_fst_spec l k
    cases hg : l.Get k with
    | mk l' ov =>
      rw [hg] at hspec
      cases ov with
      | none =>
        refine ⟨?_, ?_, ?_⟩ <;> simp [cache.get, hl, hg, cache.entries, cache.index]
        · exact hspec.1
        · exact hspec.2.1
      | some v =>
        refine ⟨?_, ?_, ?_⟩ <;> simp [cache.get, hl, hg, cache.entries, cache.index]
        · exact hspec.1
        · exact hspec.2.1

theorem cache.get_WF {c : cache} (h : c.WF) (k : String) : ((c.get k).1).WF := by
  obtain ⟨hbytes, hkeys⟩ := h
  obtain ⟨hn, hperm, hidx⟩ := cache.get_fst_fields c k
  constructor
  · show (c.get k).1.nbytes = (((c.get k).1.entries).map entryCharge).sum
    rw [hn, hbytes]
    exact ((hperm.map entryCharge).sum_eq).symm
  · show ((c.get k).1.index).Perm (((c.get k).1.entries).map Lru.entry.key) ∧
      ((c.get k).1.index).Nodup
    rw [hidx]
    exact ⟨hkeys.1.trans ((hperm.map Lru.entry.key).symm), hkeys.2⟩

theorem cache.get_keysInv {c : cache} (h : c.keysInv) (k : String) :
    ((c.get k).1).keysInv := by
  obtain ⟨-, hperm, hidx⟩ := cache.get_fst_fields c k
  show ((c.get k).1.index).Perm (((c.get k).1.entries).map Lru.entry.key) ∧
    ((c.get k).1.index).Nodup
  rw [hidx]
  exact ⟨h.1.trans ((hperm.map Lru.entry.key).symm), h.2⟩

theorem cache.removeOldest_entries (c : cache) :
    (c.removeOldest).entries = c.entries.dropLast := by
  cases hl : c.lru with
  | none => simp [cache.removeOldest, hl, cache.entries]
  | some l => simp [cache.removeOldest, hl, cache.entries, Lru.Cache.removeOldest_ll]

theorem cache.removeOldest_WF {c : cache} (h : c.WF) : (c.removeOldest).WF := by
  obtain ⟨nb, lr, nh, ng, ne⟩ := c
  obtain ⟨hbytes, hkeys⟩ := h
  cases lr with
  | none => exact ⟨hbytes, hkeys⟩
  | some l =>
    constructor
    · show nb - (((l.RemoveOldest).2).map entryCharge).sum
        = (((l.RemoveOldest).1.ll).map entryCharge).sum
      have hsum := Lru.Cache.removeOldest_sum l entryCharge
      have hb : nb = ((l.ll).map entryCharge).sum := hbytes
      linarith [hsum]
    · exact Lru.Cache.removeOldest_WFkeys hkeys

theorem cache.removeOldest_keysInv {c : cache} (h : c.keysInv) :
    (c.removeOldest).keysInv := by
  obtain ⟨nb, lr, nh, ng, ne⟩ := c
  cases lr with
  | none => exact h
  | some l => exact Lru.Cache.removeOldest_WFkeys h

theorem cache.applyOps_WF : ∀ (ops : List COp) (c : cache),
    c.WF → cache.noOverwrite c ops = true → (c.applyOps ops).WF := by
  intro ops
  induction ops with
  | nil =>
    intro c h _
    exact h
  | cons op rest ih =>
    intro c h hno
    have happ : cache.applyOps c (op :: rest) = cache.applyOps (c.applyOp op) rest := rfl
    rw [happ]
    cases op with
    | add k v =>
      simp only [cache.noOverwrite, Bool.and_eq_true, Bool.not_eq_true'] at hno
      exact ih _ (cache.add_WF h hno.1) hno.2
    | get k =>
      simp only [cache.noOverwrite] at hno
      exact ih _ (cache.get_WF h k) hno
    | removeOldest =>
      simp only [cache.noOverwrite] at hno
      exact ih _ (cache.removeOldest_WF h) hno

theorem cache.applyOps_keysInv : ∀ (ops : List COp) (c : cache),
    c.keysInv → (c.applyOps ops).keysInv := by
  intro ops
  induction ops with
  | nil =>
    intro c h
    exact h
  | cons op rest ih =>
    intro c h
    have happ : cache.applyOps c (op :: rest) = cache.applyOps (c.applyOp op) rest := rfl
    rw [happ]
    cases op with
    | add k v => exact ih _ (cache.add_keysInv h k v)
    | get k => exact ih _ (cache.get_keysInv h k)
    | removeOldest => exact ih _ (cache.removeOldest_keysInv h)

/-- Key-set equality between the segment's index map and its recency order
list, as the claim states it. -/
def cache.keySetEq (c : cache) : Prop :=
  ∀ k : String, k ∈ c.index ↔ k ∈ c.entries.map Lru.entry.key

theorem cache.keysInv_keySetEq {c : cache} (h : c.keysInv) : c.keySetEq :=
  fun _ => h.1.mem_iff

/-- C3 (amended): for every LRU segment, after any sequence of add, get and
remove-oldest operations in which no add overwrites a key already present,
the segment's `nbytes` equals the sum of `len(key) + view.Len()` over its
entries, and — for every sequence, overwriting adds included — the key set
of the index map equals the key set of the recency order list.  (The byte
clause fails on overwriting adds; see the counterexample.) -/
theorem C3_segment_invariants (c : cache) (ops : List COp) :
    (c.WF → cache.noOverwrite c ops = true →
      (c.applyOps ops).nbytes = (((c.applyOps ops).entries).map entryCharge).sum ∧
      (c.applyOps ops).keySetEq) ∧
    (c.keysInv → (c.applyOps ops).keySetEq) := by
  constructor
  · intro h hno
    have h2 := cache.applyOps_WF ops c h hno
    exact ⟨h2.1, cache.keysInv_keySetEq h2.2⟩
  · intro h
    exact cache.keysInv_keySetEq (cache.applyOps_keysInv ops c h)

/-- C3 counterexample: starting from a fresh segment, adding key "k" with a
one-byte value and then overwriting it with another one-byte value leaves
`nbytes = 4` while the entries' charges sum to `2`: the claimed byte
invariant fails on an overwriting add (the source adds the new charge
without subtracting the overwritten one). -/
theorem C3_overwrite_counterexample :
    (cache.applyOps cache.empty
        [COp.add "k" ⟨some [7], []⟩, COp.add "k" ⟨some [9], []⟩]).nbytes
      ≠ (((cache.applyOps cache.empty
        [COp.add "k" ⟨some [7], []⟩, COp.add "k" ⟨some [9], []⟩]).entries).map
          entryCharge).sum := by
  decide

theorem C3_segment_invariants_witness :
    ((cache.applyOps cache.empty
        [COp.add "a" ⟨some [1], []⟩, COp.get "a", COp.removeOldest]).nbytes
      = (((cache.applyOps cache.empty
        [COp.add "a" ⟨some [1], []⟩, COp.get "a", COp.removeOldest]).entries).map
          entryCharge).sum) ∧
    ("a" ∈ (cache.applyOps cache.empty
        [COp.add "a" ⟨some [1], []⟩, COp.get "a", COp.removeOldest]).index ↔
      "a" ∈ ((cache.applyOps cache.empty
        [COp.add "a" ⟨some [1], []⟩, COp.get "a", COp.removeOldest]).entries).map
          Lru.entry.key) := by
  have h := (C3_segment_invariants cache.empty
      [COp.add "a" ⟨some [1], []⟩, COp.get "a", COp.removeOldest]).1
    ⟨rfl, List.Perm.refl _, List.nodup_nil⟩ (by decide)
  exact ⟨h.1, h.2 "a"⟩

/-! ## Group engine (`groupcache.go`) -/

/-- Per-group statistics counters (`Stats`, int64 atomics). -/
structure Stats where
  Gets : Int
  CacheHits : Int
  PeerLoads : Int
  PeerErrors : Int
  Loads : Int
  LoadsDeduped : Int
  LocalLoads : Int
  LocalLoadErrs : Int
  ServerRequests : Int
deriving DecidableEq, Repr

def Stats.zero : Stats := ⟨0, 0, 0, 0, 0, 0, 0, 0, 0⟩

/-- The state of a `Group` relevant to the cache engine: the combined byte
budget (`cacheBytes`), the two segments and the statistics counters. -/
structure Group where
  cacheBytes : Int
  mainCache : cache
  hotCache : cache
  Stats : Groupcache.Stats
deriving DecidableEq, Repr

/-- Which segment a `populateCache` call receives a pointer to. -/
inductive CacheSel where
  | main
  | hot
deriving DecidableEq, Repr

def Group.getCacheSel (g : Group) : CacheSel → cache
  | CacheSel.main => g.mainCache
  | CacheSel.hot => g.hotCache

def Group.setCacheSel (g : Group) : CacheSel → cache → Group
  | CacheSel.main, c => { g with mainCache := c }
  | CacheSel.hot, c => { g with hotCache := c }

/-- One iteration of the eviction loop in `populateCache`: the main segment
is the victim by default; when `hotBytes > mainBytes/8` (Go `int64`
division truncating toward zero, hence `Int.tdiv`) the hot segment is the
victim instead, and the victim's oldest entry is removed. -/
def Group.evictOnce (g : Group) : Group :=
  if g.hotCache.bytes > Int.tdiv g.mainCache.bytes 8
  then { g with hotCache := g.hotCache.removeOldest }
  else { g with mainCache := g.mainCache.removeOldest }

/-- The eviction `for` loop of `populateCache`, with fuel bounding the
number of iterations.  The source loop is unbounded; the budget theorem
shows this fuel is never exhausted when the loop starts from well-formed
segments, so on those states the fuelled loop coincides with the source. -/
def Group.evictLoop : Nat → Group → Group
  | 0, g => g
  | Nat.succ fuel, g =>
    if g.mainCache.bytes + g.hotCache.bytes ≤ g.cacheBytes then g
    else Group.evictLoop fuel g.evictOnce

/-- `populateCache`: a non-positive budget is a no-op; otherwise the value
is added to the designated segment and oldest entries are evicted while the
combined bytes exceed the budget. -/
def Group.populateCache (g : Group) (key : String) (value : ByteView)
    (which : CacheSel) : Group :=
  if g.cacheBytes ≤ 0 then g
  else
    let g1 := g.setCacheSel which ((g.getCacheSel which).add key value)
    Group.evictLoop (g1.mainCache.entries.length + g1.hotCache.entries.length) g1

/-- Oracle inputs for one trip through the load closure: the peer picker's
answer (`none` models `ok = false`, i.e. the owner is this process), the
remote fetch outcome for a picked peer (the response's value bytes or a
transport error), the `rand.Intn(10) == 0` sample deciding hot-cache
population, and the user loader's outcome (the view frozen from the sink,
or the loader's error). -/
structure LoadEnv where
  pick : Option (Except GoError (List Nat))
  pop : Bool
  getterRes : Except GoError ByteView
deriving Repr

/-- `getFromPeer`: on RPC success the response bytes become a byte view
(`ByteView{b: res.Value}`) and, when the 1-in-10 sample fires, the hot
segment is populated with it. -/
def Group.getFromPeer (g : Group) (key : String)
    (peerRes : Except GoError (List Nat)) (pop : Bool) :
    Group × Except GoError ByteView :=
  match peerRes with
  | Except.error e => (g, Except.error e)
  | Except.ok bs =>
    let value : ByteView := { b := some bs, s := [] }
    let g1 := if pop then g.populateCache key value CacheSel.hot else g
    (g1, Except.ok value)

/-- The body of the closure handed to the flight collapser by `load`
(sequential semantics: the caller at hand runs it). -/
def Group.loadBody (g : Group) (key : String) (env : LoadEnv) :
    Group × Except GoError ByteView × Bool :=
  let g0 : Group :=
    { g with Stats := { g.Stats with LoadsDeduped := g.Stats.LoadsDeduped + 1 } }
  let step1 : Group × Option ByteView :=
    match env.pick with
    | none => (g0, none)
    | some peerRes =>
      match g0.getFromPeer key peerRes env.pop with
      | (g1, Except.ok value) =>
        ({ g1 with Stats := { g1.Stats with PeerLoads := g1.Stats.PeerLoads + 1 } },
          some value)
      | (g1, Except.error _) =>
        ({ g1 with Stats := { g1.Stats with PeerErrors := g1.Stats.PeerErrors + 1 } },
          none)
  match step1 with
  | (g1, some value) => (g1, Except.ok value, false)
  | (g1, none) =>
    match env.getterRes with
    | Except.error e =>
      ({ g1 with Stats := { g1.Stats with LocalLoadErrs := g1.Stats.LocalLoadErrs + 1 } },
        Except.error e, false)
    | Except.ok value =>
      let g2 : Group :=
        { g1 with Stats := { g1.Stats with LocalLoads := g1.Stats.LocalLoads + 1 } }
      (g2.populateCache key value CacheSel.main, Except.ok value, true)

/-- `load`: bump `Loads`, then run the closure through the collapser (a
single caller executes it directly).  The third component is the
`destPopulated` flag. -/
def Group.load (g : Group) (key : String) (env : LoadEnv) :
    Group × Except GoError ByteView × Bool :=
  Group.loadBody
    { g with Stats := { g.Stats with Loads := g.Stats.Loads + 1 } } key env

/-- `lookupCache`: with a non-positive budget the lookup unconditionally
misses without touching either segment; otherwise main is consulted first,
then hot. -/
def Group.lookupCache (g : Group) (key : String) : Group × Option ByteView :=
  if g.cacheBytes ≤ 0 then (g, none)
  else
    match g.mainCache.get key with
    | (mc, some value) => ({ g with mainCache := mc }, some value)
    | (mc, none) =>
      match g.hotCache.get key with
      | (hc, some value) => ({ g with mainCache := mc, hotCache := hc }, some value)
      | (hc, none) => ({ g with mainCache := mc, hotCache := hc }, none)

/-- `Get` (sequential semantics): bump `Gets`; a nil sink is a user error;
a cache hit bumps `CacheHits` and delivers the cached view; otherwise the
load closure runs and its value or error is delivered. -/
def Group.Get (g : Group) (key : String) (destNil : Bool) (env : LoadEnv) :
    Group × Except GoError ByteView :=
  let g0 : Group := { g with Stats := { g.Stats with Gets := g.Stats.Gets + 1 } }
  if destNil then (g0, Except.error (GoError.msg "groupcache: nil dest Sink"))
  else
    match g0.lookupCache key with
    | (g1, some value) =>
      ({ g1 with Stats := { g1.Stats with CacheHits := g1.Stats.CacheHits + 1 } },
        Except.ok value)
    | (g1, none) =>
      let r := g1.load key env
      (r.1, r.2.1)

/-! ### Eviction-loop lemmas -/

theorem cache.bytes_nonneg {c : cache} (h : c.bytesInv) : 0 ≤ c.nbytes := by
  rw [h]
  apply List.sum_nonneg
  intro x hx
  obtain ⟨e, -, rfl⟩ := List.mem_map.mp hx
  exact entryCharge_nonneg e

theorem cache.entries_ne_nil_of_pos {c : cache} (h : c.bytesInv) (hpos : 0 < c.nbytes) :
    c.entries ≠ [] := by
  intro h0
  rw [h, h0] at hpos
  simp at hpos

theorem Group.evictOnce_fields (g : Group) :
    g.evictOnce.cacheBytes = g.cacheBytes ∧ g.evictOnce.Stats = g.Stats := by
  unfold Group.evictOnce
  split <;> exact ⟨rfl, rfl⟩

theorem Group.evictOnce_spec {g : Group}
    (hm : g.mainCache.WF) (hh : g.hotCache.WF)
    (hover : ¬ g.mainCache.bytes + g.hotCache.bytes ≤ g.cacheBytes)
    (hpos : 0 < g.cacheBytes) :
    g.evictOnce.mainCache.WF ∧ g.evictOnce.hotCache.WF ∧
    g.evictOnce.mainCache.entries.length + g.evictOnce.hotCache.entries.length + 1
      = g.mainCache.entries.length + g.hotCache.entries.length := by
  have hmn : 0 ≤ g.mainCache.bytes := cache.bytes_nonneg hm.1
  have hhn : 0 ≤ g.hotCache.bytes := cache.bytes_nonneg hh.1
  unfold Group.evictOnce
  by_cases hc : g.hotCache.bytes > Int.tdiv g.mainCache.bytes 8
  · rw [if_pos hc]
    have hhpos : 0 < g.hotCache.bytes :=
      lt_of_le_of_lt (Int.tdiv_nonneg hmn (by norm_num)) hc
    have hne := cache.entries_ne_nil_of_pos hh.1 hhpos
    refine ⟨hm, cache.removeOldest_WF hh, ?_⟩
    show (g.mainCache.entries.length + (g.hotCache.removeOldest).entries.length) + 1 = _
    rw [cache.removeOldest_entries]
    have hlen : g.hotCache.entries.length ≠ 0 := fun h0 => hne (List.length_eq_zero.mp h0)
    have hdl := List.length_dropLast g.hotCache.entries
    omega
  · rw [if_neg hc]
    push_neg at hc
    have hmpos : 0 < g.mainCache.bytes := by
      rcases lt_or_eq_of_le hmn with h | h
      · exact h
      · exfalso
        apply hover
        have h8 : Int.tdiv (0 : Int) 8 = 0 := by decide
        rw [← h] at hc ⊢
        rw [h8] at hc
        linarith
    have hne := cache.entries_ne_nil_of_pos hm.1 hmpos
    refine ⟨cache.removeOldest_WF hm, hh, ?_⟩
    show ((g.mainCache.removeOldest).entries.length + g.hotCache.entries.length) + 1 = _
    rw [cache.removeOldest_entries]
    have hlen : g.mainCache.entries.length ≠ 0 := fun h0 => hne (List.length_eq_zero.mp h0)
    have hdl := List.length_dropLast g.mainCache.entries
    omega

theorem Group.evictLoop_fields : ∀ (fuel : Nat) (g : Group),
    (Group.evictLoop fuel g).Stats = g.Stats ∧
    (Group.evictLoop fuel g).cacheBytes = g.cacheBytes := by
  intro fuel
  induction fuel with
  | zero => intro g; exact ⟨rfl, rfl⟩
  | succ fuel ih =>
    intro g
    unfold Group.evictLoop
    split
    · exact ⟨rfl, rfl⟩
    · have h1 := ih g.evictOnce
      have h2 := Group.evictOnce_fields g
      exact ⟨h1.1.trans h2.2, h1.2.trans h2.1⟩

theorem Group.evictLoop_le : ∀ (fuel : Nat) (g : Group), 0 < g.cacheBytes →
    g.mainCache.WF → g.hotCache.WF →
    g.mainCache.entries.length + g.hotCache.entries.length ≤ fuel →
    (Group.evictLoop fuel g).mainCache.bytes + (Group.evictLoop fuel g).hotCache.bytes
      ≤ g.cacheBytes := by
  intro fuel
  induction fuel with
  | zero =>
    intro g hpos hm hh hlen
    have hm0 : g.mainCache.entries = [] := List.length_eq_zero.mp (by omega)
    have hh0 : g.hotCache.entries = [] := List.length_eq_zero.mp (by omega)
    have hb1 : g.mainCache.bytes = 0 := by
      show g.mainCache.nbytes = 0
      rw [hm.1, hm0]
      rfl
    have hb2 : g.hotCache.bytes = 0 := by
      show g.hotCache.nbytes = 0
      rw [hh.1, hh0]
      rfl
    show g.mainCache.bytes + g.hotCache.bytes ≤ g.cacheBytes
    rw [hb1, hb2]
    linarith
  | succ fuel ih =>
    intro g hpos hm hh hlen
    by_cases hle : g.mainCache.bytes + g.hotCache.bytes ≤ g.cacheBytes
    · have hstep : Group.evictLoop (fuel + 1) g
          = if g.mainCache.bytes + g.hotCache.bytes ≤ g.cacheBytes then g
            else Group.evictLoop fuel g.evictOnce := rfl
      rw [hstep, if_pos hle]
      exact hle
    · have hstep : Group.evictLoop (fuel + 1) g
          = if g.mainCache.bytes + g.hotCache.bytes ≤ g.cacheBytes then g
            else Group.evictLoop fuel g.evictOnce := rfl
      rw [hstep, if_neg hle]
      obtain ⟨hcb, -⟩ := Group.evictOnce_fields g
      obtain ⟨hm', hh', hcount⟩ := Group.evictOnce_spec hm hh hle hpos
      have h := ih g.evictOnce (hcb ▸ hpos) hm' hh' (by omega)
      rw [hcb] at h
      exact h

/-- C1: for every group with a positive byte budget and well-formed
segments, after `populateCache` (an add of a fresh key to the designated
segment followed by the eviction loop) completes, the combined byte charge
of the main and hot segments is at most the budget; and while the bytes
exceed the budget, each loop iteration removes one oldest entry from the
main segment by default, or from the hot segment when
`hot.bytes > main.bytes / 8`. -/
theorem C1_populate_budget (g : Group) (key : String) (value : ByteView)
    (which : CacheSel) (hpos : 0 < g.cacheBytes)
    (hm : g.mainCache.WF) (hh : g.hotCache.WF)
    (hfresh : (g.getCacheSel which).index.contains key = false) :
    ((g.populateCache key value which).mainCache.bytes
        + (g.populateCache key value which).hotCache.bytes ≤ g.cacheBytes) ∧
    (∀ h : Group, ¬ (h.mainCache.bytes + h.hotCache.bytes ≤ h.cacheBytes) →
      (∀ fuel : Nat, Group.evictLoop (fuel + 1) h = Group.evictLoop fuel h.evictOnce) ∧
      (h.hotCache.bytes > Int.tdiv h.mainCache.bytes 8 →
        h.evictOnce.hotCache.entries = h.hotCache.entries.dropLast ∧
        h.evictOnce.mainCache = h.mainCache) ∧
      (¬ h.hotCache.bytes > Int.tdiv h.mainCache.bytes 8 →
        h.evictOnce.mainCache.entries = h.mainCache.entries.dropLast ∧
        h.evictOnce.hotCache = h.hotCache)) := by
  constructor
  · have hb : ¬ g.cacheBytes ≤ 0 := not_le.mpr hpos
    unfold Group.populateCache
    rw [if_neg hb]
    cases which with
    | main =>
      have hm' : ({ g with mainCache := g.mainCache.add key value } : Group).mainCache.WF :=
        cache.add_WF hm hfresh
      exact Group.evictLoop_le _ _ hpos hm' hh (le_refl _)
    | hot =>
      have hh' : ({ g with hotCache := g.hotCache.add key value } : Group).hotCache.WF :=
        cache.add_WF hh hfresh
      exact Group.evictLoop_le _ _ hpos hm hh' (le_refl _)
  · intro h hover
    refine ⟨?_, ?_, ?_⟩
    · intro fuel
      have hstep : Group.evictLoop (fuel + 1) h
          = if h.mainCache.bytes + h.hotCache.bytes ≤ h.cacheBytes then h
            else Group.evictLoop fuel h.evictOnce := rfl
      rw [hstep, if_neg hover]
    · intro hc
      unfold Group.evictOnce
      rw [if_pos hc]
      exact ⟨cache.removeOldest_entries _, rfl⟩
    · intro hc
      unfold Group.evictOnce
      rw [if_neg hc]
      exact ⟨cache.removeOldest_entries _, rfl⟩

/-! ### Load-path lemmas -/

theorem Group.populateCache_Stats (g : Group) (key : String) (value : ByteView)
    (which : CacheSel) : (g.populateCache key value which).Stats = g.Stats := by
  unfold Group.populateCache
  split
  · rfl
  · cases which <;> exact (Group.evictLoop_fields _ _).1

theorem Group.populateCache_cacheBytes (g : Group) (key : String) (value : ByteView)
    (which : CacheSel) : (g.populateCache key value which).cacheBytes = g.cacheBytes := by
  unfold Group.populateCache
  split
  · rfl
  · cases which <;> exact (Group.evictLoop_fields _ _).2

theorem Lru.Cache.get_miss (l : Lru.Cache) (k : String) (h : (l.Get k).2 = none) :
    (l.Get k).1 = l := by
  unfold Lru.Cache.Get at h ⊢
  by_cases hcm : k ∈ l.cache
  · cases hf : l.ll.find? (fun e => e.key == k) with
    | none => simp [hcm, hf]
    | some e =>
      exfalso
      revert h
      simp [hcm, hf]
  · simp [hcm]

theorem cache.get_miss_fst {c : cache} {k : String} (h : (c.get k).2 = none) :
    (c.get k).1.entries = c.entries ∧ (c.get k).1.nbytes = c.nbytes := by
  cases hl : c.lru with
  | none => simp [cache.get, hl, cache.entries]
  | some l =>
    cases hg : l.Get k with
    | mk l' ov =>
      cases ov with
      | some v =>
        exfalso
        revert h
        simp [cache.get, hl, hg]
      | none =>
        have h2 := Lru.Cache.get_miss l k (by rw [hg])
        rw [hg] at h2
        simp only at h2
        subst h2
        simp [cache.get, hl, hg, cache.entries]

theorem Group.get_miss_load (g : Group) (key : String) (env : LoadEnv)
    (hm : (g.mainCache.get key).2 = none) (hh : (g.hotCache.get key).2 = none) :
    ∃ g1 : Group,
      g.Get key false env = ((g1.load key env).1, (g1.load key env).2.1) ∧
      g1.mainCache.entries = g.mainCache.entries ∧
      g1.mainCache.nbytes = g.mainCache.nbytes ∧
      g1.hotCache.entries = g.hotCache.entries ∧
      g1.hotCache.nbytes = g.hotCache.nbytes ∧
      g1.cacheBytes = g.cacheBytes ∧
      g1.Stats = { g.Stats with Gets := g.Stats.Gets + 1 } := by
  by_cases hb : g.cacheBytes ≤ 0
  · refine ⟨{ g with Stats := { g.Stats with Gets := g.Stats.Gets + 1 } },
      ?_, rfl, rfl, rfl, rfl, rfl, rfl⟩
    simp [Group.Get, Group.lookupCache, hb]
  · obtain ⟨mc, hmg⟩ : ∃ mc, g.mainCache.get key = (mc, none) :=
      ⟨(g.mainCache.get key).1, by rw [← hm]⟩
    obtain ⟨hc, hhg⟩ : ∃ hc, g.hotCache.get key = (hc, none) :=
      ⟨(g.hotCache.get key).1, by rw [← hh]⟩
    have hmfst := cache.get_miss_fst hm
    have hhfst := cache.get_miss_fst hh
    rw [hmg] at hmfst
    rw [hhg] at hhfst
    simp only at hmfst hhfst
    refine ⟨Group.mk g.cacheBytes mc hc { g.Stats with Gets := g.Stats.Gets + 1 },
      ?_, hmfst.1, hmfst.2, hhfst.1, hhfst.2, rfl, rfl⟩
    simp [Group.Get, Group.lookupCache, hb, hmg, hhg]

theorem Group.load_Loads (g : Group) (key : String) (env : LoadEnv) :
    (g.load key env).1.Stats.Loads = g.Stats.Loads + 1 := by
  obtain ⟨pick, pop, gr⟩ := env
  cases pick with
  | none =>
    cases gr with
    | error e => rfl
    | ok v =>
      simp [Group.load, Group.loadBody, Group.populateCache_Stats]
  | some pr =>
    cases pr with
    | error pe =>
      cases gr with
      | error e => rfl
      | ok v =>
        simp [Group.load, Group.loadBody, Group.getFromPeer, Group.populateCache_Stats]
    | ok bs =>
      cases pop with
      | false => rfl
      | true =>
        simp [Group.load, Group.loadBody, Group.getFromPeer, Group.populateCache_Stats]

/-- C10 (helper): with a non-positive budget, `load` leaves both segments
untouched because every `populateCache` it could reach is a no-op. -/
theorem Group.load_zero_budget (g : Group) (key : String) (env : LoadEnv)
    (hb : g.cacheBytes ≤ 0) :
    (g.load key env).1.mainCache = g.mainCache ∧
    (g.load key env).1.hotCache = g.hotCache := by
  obtain ⟨pick, pop, gr⟩ := env
  cases pick with
  | none =>
    cases gr with
    | error e => exact ⟨rfl, rfl⟩
    | ok v =>
      constructor <;> simp [Group.load, Group.loadBody, Group.populateCache, hb]
  | some pr =>
    cases pr with
    | error pe =>
      cases gr with
      | error e => exact ⟨rfl, rfl⟩
      | ok v =>
        constructor <;>
          simp [Group.load, Group.loadBody, Group.getFromPeer, Group.populateCache, hb]
    | ok bs =>
      cases pop with
      | false => exact ⟨rfl, rfl⟩
      | true =>
        constructor <;>
          simp [Group.load, Group.loadBody, Group.getFromPeer, Group.populateCache, hb]

/-- C10: for every group with byte budget ≤ 0, every Get bypasses both
segments: the cache lookup unconditionally misses, `populateCache` is a
no-op, and each Get runs the load path (incrementing `Loads`) while storing
nothing in the main or hot segment. -/
theorem C10_zero_budget_bypass (g : Group) (key : String) (env : LoadEnv)
    (hb : g.cacheBytes ≤ 0) :
    g.lookupCache key = (g, none) ∧
    (∀ (k : String) (v : ByteView) (w : CacheSel), g.populateCache k v w = g) ∧
    g.Get key false env
      = ((({ g with Stats := { g.Stats with Gets := g.Stats.Gets + 1 } } : Group).load
            key env).1,
         (({ g with Stats := { g.Stats with Gets := g.Stats.Gets + 1 } } : Group).load
            key env).2.1) ∧
    (g.Get key false env).1.mainCache = g.mainCache ∧
    (g.Get key false env).1.hotCache = g.hotCache ∧
    (g.Get key false env).1.Stats.Loads = g.Stats.Loads + 1 := by
  have hlk : g.lookupCache key = (g, none) := by
    unfold Group.lookupCache
    rw [if_pos hb]
  have hget : g.Get key false env
      = ((({ g with Stats := { g.Stats with Gets := g.Stats.Gets + 1 } } : Group).load
            key env).1,
         (({ g with Stats := { g.Stats with Gets := g.Stats.Gets + 1 } } : Group).load
            key env).2.1) := by
    simp [Group.Get, Group.lookupCache, hb]
  refine ⟨hlk, ?_, hget, ?_, ?_, ?_⟩
  · intro k v w
    unfold Group.populateCache
    rw [if_pos hb]
  · rw [hget]
    exact (Group.load_zero_budget
      { g with Stats := { g.Stats with Gets := g.Stats.Gets + 1 } } key env hb).1
  · rw [hget]
    exact (Group.load_zero_budget
      { g with Stats := { g.Stats with Gets := g.Stats.Gets + 1 } } key env hb).2
  · rw [hget]
    rw [Group.load_Loads]

theorem C10_zero_budget_bypass_witness :
    (Group.mk 0 cache.empty cache.empty Stats.zero).lookupCache "a"
      = (Group.mk 0 cache.empty cache.empty Stats.zero, none) ∧
    ((Group.mk 0 cache.empty cache.empty Stats.zero).Get "a" false
        ⟨none, false, Except.ok ⟨some [1], []⟩⟩).1.mainCache = cache.empty ∧
    ((Group.mk 0 cache.empty cache.empty Stats.zero).Get "a" false
        ⟨none, false, Except.ok ⟨some [1], []⟩⟩).1.Stats.Loads = 1 := by
  have h := C10_zero_budget_bypass (Group.mk 0 cache.empty cache.empty Stats.zero)
    "a" ⟨none, false, Except.ok ⟨some [1], []⟩⟩ (by decide)
  exact ⟨h.1, h.2.2.2.1, h.2.2.2.2.2.trans (by decide)⟩

/-- C5: when the user loader errors during a local load (the owner is self,
or the peer fetch failed first), Get returns exactly that error, the
`local-load-errs` counter is incremented, and neither segment's entries or
byte count changes — the error is not cached. -/
theorem C5_loader_error_not_cached (g : Group) (key : String) (env : LoadEnv)
    (e : GoError)
    (hm : (g.mainCache.get key).2 = none) (hh : (g.hotCache.get key).2 = none)
    (hlocal : env.pick = none ∨ ∃ pe : GoError, env.pick = some (Except.error pe))
    (herr : env.getterRes = Except.error e) :
    (g.Get key false env).2 = Except.error e ∧
    (g.Get key false env).1.Stats.LocalLoadErrs = g.Stats.LocalLoadErrs + 1 ∧
    (g.Get key false env).1.mainCache.entries = g.mainCache.entries ∧
    (g.Get key false env).1.mainCache.nbytes = g.mainCache.nbytes ∧
    (g.Get key false env).1.hotCache.entries = g.hotCache.entries ∧
    (g.Get key false env).1.hotCache.nbytes = g.hotCache.nbytes := by
  obtain ⟨g1, hget, hme, hmb, hhe, hhb, hcb, hstats⟩ := Group.get_miss_load g key env hm hh
  obtain ⟨pick, pop, gr⟩ := env
  simp only at herr
  subst herr
  rw [hget]
  rcases hlocal with hpick | ⟨pe, hpick⟩ <;> simp only at hpick <;> subst hpick
  · refine ⟨rfl, ?_, hme, hmb, hhe, hhb⟩
    show g1.Stats.LocalLoadErrs + 1 = g.Stats.LocalLoadErrs + 1
    rw [hstats]
  · refine ⟨rfl, ?_, hme, hmb, hhe, hhb⟩
    show g1.Stats.LocalLoadErrs + 1 = g.Stats.LocalLoadErrs + 1
    rw [hstats]

theorem C5_loader_error_not_cached_witness :
    ((Group.mk 100 cache.empty cache.empty Stats.zero).Get "a" false
        ⟨none, false, Except.error (GoError.msg "boom")⟩).2
      = Except.error (GoError.msg "boom") ∧
    ((Group.mk 100 cache.empty cache.empty Stats.zero).Get "a" false
        ⟨none, false, Except.error (GoError.msg "boom")⟩).1.Stats.LocalLoadErrs = 1 ∧
    ((Group.mk 100 cache.empty cache.empty Stats.zero).Get "a" false
        ⟨none, false, Except.error (GoError.msg "boom")⟩).1.mainCache.entries = [] := by
  have h := C5_loader_error_not_cached (Group.mk 100 cache.empty cache.empty Stats.zero)
    "a" ⟨none, false, Except.error (GoError.msg "boom")⟩ (GoError.msg "boom")
    rfl rfl (Or.inl rfl) rfl
  exact ⟨h.1, (h.2.1).trans (by decide), h.2.2.1⟩

/-- C6: when the key's owner is a remote peer and the peer RPC fails, the
load closure increments `peer-errors` and falls through to the local
loader, so Get still succeeds (and also counts a local load) when the
loader succeeds. -/
theorem C6_peer_error_fallback (g : Group) (key : String) (env : LoadEnv)
    (pe : GoError) (v : ByteView)
    (hm : (g.mainCache.get key).2 = none) (hh : (g.hotCache.get key).2 = none)
    (hpick : env.pick = some (Except.error pe))
    (hok : env.getterRes = Except.ok v) :
    (g.Get key false env).2 = Except.ok v ∧
    (g.Get key false env).1.Stats.PeerErrors = g.Stats.PeerErrors + 1 ∧
    (g.Get key false env).1.Stats.LocalLoads = g.Stats.LocalLoads + 1 := by
  obtain ⟨g1, hget, hme, hmb, hhe, hhb, hcb, hstats⟩ := Group.get_miss_load g key env hm hh
  obtain ⟨pick, pop, gr⟩ := env
  simp only at hpick hok
  subst hpick
  subst hok
  rw [hget]
  refine ⟨rfl, ?_, ?_⟩
  · simp [Group.load, Group.loadBody, Group.getFromPeer, Group.populateCache_Stats, hstats]
  · simp [Group.load, Group.loadBody, Group.getFromPeer, Group.populateCache_Stats, hstats]

theorem C6_peer_error_fallback_witness :
    ((Group.mk 100 cache.empty cache.empty Stats.zero).Get "a" false
        ⟨some (Except.error (GoError.msg "down")), false, Except.ok ⟨some [9], []⟩⟩).2
      = Except.ok ⟨some [9], []⟩ ∧
    ((Group.mk 100 cache.empty cache.empty Stats.zero).Get "a" false
        ⟨some (Except.error (GoError.msg "down")), false,
          Except.ok ⟨some [9], []⟩⟩).1.Stats.PeerErrors = 1 := by
  have h := C6_peer_error_fallback (Group.mk 100 cache.empty cache.empty Stats.zero)
    "a" ⟨some (Except.error (GoError.msg "down")), false, Except.ok ⟨some [9], []⟩⟩
    (GoError.msg "down") ⟨some [9], []⟩ rfl rfl rfl rfl
  exact ⟨h.1, (h.2.1).trans (by decide)⟩

theorem C1_populate_budget_witness :
    ((Group.mk 1 cache.empty cache.empty Stats.zero).populateCache
        "a" ⟨some [5], []⟩ CacheSel.main).mainCache.bytes
      + ((Group.mk 1 cache.empty cache.empty Stats.zero).populateCache
        "a" ⟨some [5], []⟩ CacheSel.main).hotCache.bytes ≤ 1 := by
  have h := (C1_populate_budget (Group.mk 1 cache.empty cache.empty Stats.zero)
    "a" ⟨some [5], []⟩ CacheSel.main (by decide)
    ⟨rfl, List.Perm.refl _, List.nodup_nil⟩
    ⟨rfl, List.Perm.refl _, List.nodup_nil⟩ (by decide)).1
  exact h

end Groupcache

/-! ## Consistent-hash ring (`consistenthash/consistenthash.go`) -/

namespace Consistenthash

/-- The documented contract of `sort.Search(n, f)`: the smallest `i < n`
with `f i = true`, else `n`.  `Map.Get` calls it with a predicate monotone
on the sorted key list, where the binary search and this least-index scan
coincide. -/
def sortSearchGo (f : Nat → Bool) : Nat → Nat → Nat
  | i, 0 => i
  | i, Nat.succ rem => if f i then i else sortSearchGo f (i + 1) rem

def sortSearch (n : Nat) (f : Nat → Bool) : Nat := sortSearchGo f 0 n

/-- Go map assignment `m[k] = v` on an association list: overwrite in place
if present, else append. -/
def mapAssign (m : List (Nat × String)) (k : Nat) (v : String) : List (Nat × String) :=
  if (m.lookup k).isSome then
    m.map (fun p => if p.1 = k then (k, v) else p)
  else m ++ [(k, v)]

/-- Go map read `m[k]` with the string zero value for a missing key. -/
def mapGet (m : List (Nat × String)) (k : Nat) : String :=
  (m.lookup k).getD ""

/-- `consistenthash.Map`: pluggable 32-bit hash function (CRC-32/IEEE by
default in the source; abstract here, as the ring logic never inspects it),
replica count, the sorted virtual-point hashes `keys`, and the hash→peer
map.  `sort.Ints` is modelled by `insertionSort`, extensionally the sorted
permutation it produces. -/
structure Map where
  hash : String → Nat
  replicas : Nat
  keys : List Nat
  hashMap : List (Nat × String)

def New (replicas : Nat) (hash : String → Nat) : Map :=
  { hash := hash, replicas := replicas, keys := [], hashMap := [] }

def Map.IsEmpty (m : Map) : Bool := m.keys.isEmpty

/-- The virtual points contributed by the peer ids `ks`: for each peer and
each `i ∈ [0, replicas)`, the pair `(hash (strconv.Itoa i ++ peer), peer)`,
in the source's iteration order. -/
def virtualPairs (hash : String → Nat) (replicas : Nat) (ks : List String) :
    List (Nat × String) :=
  ks.flatMap (fun key => (List.range replicas).map
    (fun i => (hash (toString i ++ key), key)))

/-- `Map.Add`: append every virtual-point hash to `keys`, record each in the
hash→peer map, and sort `keys`. -/
def Map.Add (m : Map) (ks : List String) : Map :=
  if ks.length = 0 then m
  else
    { m with
      keys := (m.keys ++ (virtualPairs m.hash m.replicas ks).map Prod.fst).insertionSort
        (· ≤ ·),
      hashMap := (virtualPairs m.hash m.replicas ks).foldl
        (fun acc p => mapAssign acc p.1 p.2) m.hashMap }

/-- `Map.Get`: "" on an empty ring; otherwise hash the key, binary-search
for the lowest virtual point with hash ≥ it, wrap to index 0 when none
exists, and return that point's peer. -/
def Map.Get (m : Map) (key : String) : String :=
  if m.IsEmpty then ""
  else
    let h := m.hash key
    let idx0 := sortSearch m.keys.length (fun i => decide (m.keys.getD i 0 ≥ h))
    let idx := if idx0 = m.keys.length then 0 else idx0
    mapGet m.hashMap (m.keys.getD idx 0)

/-- The claim's reading of the ring: the virtual points
`(hash32 (str i ++ peer), peer)` sorted by hash. -/
def ringPoints (hash : String → Nat) (replicas : Nat) (peers : List String) :
    List (Nat × String) :=
  (virtualPairs hash replicas peers).insertionSort (fun a b => a.1 ≤ b.1)

/-- The claim's lookup: hash the key, take the lowest sorted entry whose
hash is ≥ it (wrapping to entry 0 when none exists), return that entry's
peer id; the empty ring yields "no peer" (the empty string). -/
def pickSpec (hash : String → Nat) (replicas : Nat) (peers : List String)
    (key : String) : String :=
  let pts := ringPoints hash replicas peers
  match pts with
  | [] => ""
  | p0 :: _ =>
    match pts.find? (fun pt => decide (pt.1 ≥ hash key)) with
    | some pt => pt.2
    | none => p0.2

theorem sortSearchGo_shift (f : Nat → Bool) :
    ∀ (rem i : Nat), sortSearchGo f (i + 1) rem
      = sortSearchGo (fun j => f (j + 1)) i rem + 1 := by
  intro rem
  induction rem with
  | zero => intro i; rfl
  | succ rem ih =>
    intro i
    show (if f (i + 1) then i + 1 else sortSearchGo f (i + 1 + 1) rem)
      = (if f (i + 1) then i else sortSearchGo (fun j => f (j + 1)) (i + 1) rem) + 1
    by_cases hp : f (i + 1)
    · rw [if_pos hp, if_pos hp]
    · rw [if_neg hp, if_neg hp, ih (i + 1)]

theorem sortSearch_eq_findIdx (p : Nat → Bool) :
    ∀ xs : List Nat,
      sortSearch xs.length (fun i => p (xs.getD i 0)) = xs.findIdx p := by
  intro xs
  induction xs with
  | nil => rfl
  | cons x t ih =>
    by_cases hp : p x
    · show (if p x = true then 0
          else sortSearchGo (fun i => p ((x :: t).getD i 0)) 1 t.length) = _
      rw [if_pos hp, List.findIdx_cons, hp]
      rfl
    · have hpf : p x = false := by simpa using hp
      show (if p x = true then 0
          else sortSearchGo (fun i => p ((x :: t).getD i 0)) 1 t.length) = _
      rw [if_neg hp]
      have hsh := sortSearchGo_shift (fun i => p ((x :: t).getD i 0)) t.length 0
      rw [hsh]
      have hih : sortSearchGo (fun j => p ((x :: t).getD (j + 1) 0)) 0 t.length
          = t.findIdx p := ih
      rw [hih, List.findIdx_cons, hpf]
      rfl

theorem findIdx_map_comp {α β : Type _} (f : α → β) (p : β → Bool) :
    ∀ l : List α, (l.map f).findIdx p = l.findIdx (fun x => p (f x)) := by
  intro l
  induction l with
  | nil => rfl
  | cons a t ih =>
    simp [List.findIdx_cons, ih]

theorem find?_some_findIdx {α : Type _} (p : α → Bool) (dflt : α) :
    ∀ (l : List α) (e : α), l.find? p = some e →
      l.findIdx p < l.length ∧ l.getD (l.findIdx p) dflt = e := by
  intro l
  induction l with
  | nil => intro e h; simp at h
  | cons a t ih =>
    intro e h
    by_cases hp : p a
    · rw [List.find?_cons_of_pos _ hp] at h
      cases h
      refine ⟨?_, ?_⟩
      · rw [List.findIdx_cons, hp]
        simp
      · rw [List.findIdx_cons, hp]
        rfl
    · have hpf : p a = false := by simpa using hp
      rw [List.find?_cons_of_neg _ hp] at h
      obtain ⟨h1, h2⟩ := ih e h
      refine ⟨?_, ?_⟩
      · rw [List.findIdx_cons, hpf]
        simp only [cond_false, List.length_cons]
        omega
      · rw [List.findIdx_cons, hpf]
        simp only [cond_false, List.getD_cons_succ]
        exact h2

theorem find?_none_findIdx {α : Type _} (p : α → Bool) :
    ∀ l : List α, l.find? p = none → l.findIdx p = l.length := by
  intro l
  induction l with
  | nil => intro _; rfl
  | cons a t ih =>
    intro h
    by_cases hp : p a
    · rw [List.find?_cons_of_pos _ hp] at h
      simp at h
    · have hpf : p a = false := by simpa using hp
      rw [List.find?_cons_of_neg _ hp] at h
      rw [List.findIdx_cons, hpf]
      simp [ih h]

theorem foldl_mapAssign_fresh :
    ∀ (pairs acc : List (Nat × String)),
      (∀ k, k ∈ pairs.map Prod.fst → acc.lookup k = none) →
      (pairs.map Prod.fst).Nodup →
      pairs.foldl (fun a p => mapAssign a p.1 p.2) acc = acc ++ pairs := by
  intro pairs
  induction pairs with
  | nil =>
    intro acc _ _
    simp
  | cons p t ih =>
    intro acc hfresh hnd
    have hl : acc.lookup p.1 = none := hfresh p.1 (by simp)
    have h1 : mapAssign acc p.1 p.2 = acc ++ [(p.1, p.2)] := by
      unfold mapAssign
      rw [hl]
      rfl
    have hpn : p.1 ∉ t.map Prod.fst := (List.nodup_cons.mp (by simpa using hnd)).1
    have hfresh2 : ∀ k, k ∈ t.map Prod.fst → (acc ++ [(p.1, p.2)]).lookup k = none := by
      intro k hk
      rw [List.lookup_append, hfresh k (by simp [hk])]
      have hkp : (k == p.1) = false := by
        have hne : k ≠ p.1 := by
          intro heq
          exact hpn (heq ▸ hk)
        simpa using hne
      simp [List.lookup, hkp]
    have hnd2 : (t.map Prod.fst).Nodup := (List.nodup_cons.mp (by simpa using hnd)).2
    rw [List.foldl_cons, h1, ih (acc ++ [(p.1, p.2)]) hfresh2 hnd2, List.append_assoc]
    simp

theorem lookup_eq_some_of_mem_nodup :
    ∀ (l : List (Nat × String)) (k : Nat) (v : String),
      (l.map Prod.fst).Nodup → (k, v) ∈ l → l.lookup k = some v := by
  intro l
  induction l with
  | nil =>
    intro k v _ h
    simp at h
  | cons p t ih =>
    intro k v hnd hmem
    rcases List.mem_cons.mp hmem with heq | hmem'
    · cases heq.symm
      simp [List.lookup]
    · have hk : k ∈ t.map Prod.fst := List.mem_map.mpr ⟨(k, v), hmem', rfl⟩
      have hpn : p.1 ∉ t.map Prod.fst := (List.nodup_cons.mp (by simpa using hnd)).1
      have hne : (k == p.1) = false := by
        have : k ≠ p.1 := fun heq => hpn (heq ▸ hk)
        simpa using this
      obtain ⟨p1, p2⟩ := p
      simp only at hne
      simp [List.lookup, hne]
      exact ih k v (List.nodup_cons.mp (by simpa using hnd)).2 hmem'

theorem insertionSort_map_fst (pairs : List (Nat × String)) :
    (pairs.map Prod.fst).insertionSort (· ≤ ·)
      = (pairs.insertionSort (fun a b => a.1 ≤ b.1)).map Prod.fst := by
  haveI htot : IsTotal (Nat × String) (fun a b => a.1 ≤ b.1) :=
    ⟨fun a b => Nat.le_total _ _⟩
  haveI htr : IsTrans (Nat × String) (fun a b => a.1 ≤ b.1) :=
    ⟨fun a b c hab hbc => le_trans hab hbc⟩
  exact List.eq_of_perm_of_sorted
    ((List.perm_insertionSort _ _).trans
      (((List.perm_insertionSort _ pairs).map Prod.fst).symm))
    (List.sorted_insertionSort _ _)
    (List.pairwise_map.mpr (List.sorted_insertionSort _ pairs))

/-- C4: `pick` on a ring built from a peer set with `replicas` virtual
points per peer computes `h = hash32 key`, searches the sorted virtual-point
list for the lowest entry whose hash is ≥ h, returns that entry's peer id,
wraps to entry 0 when no such entry exists, and returns "no peer" (the
empty string) for an empty ring; the virtual points are
`hash32 (str i ++ peer)` for each peer and each `i ∈ [0, replicas)`, sorted
by hash.  The hypothesis asks the virtual-point hashes to be collision-free
(the source resolves collisions through map overwrites, outside this
claim). -/
theorem C4_ring_pick (hash : String → Nat) (replicas : Nat)
    (peers : List String) (key : String)
    (hinj : ((virtualPairs hash replicas peers).map Prod.fst).Nodup) :
    ((New replicas hash).Add peers).keys
      = (ringPoints hash replicas peers).map Prod.fst ∧
    ((New replicas hash).Add peers).Get key = pickSpec hash replicas peers key := by
  by_cases hlen : peers.length = 0
  · have hpe : peers = [] := List.length_eq_zero.mp hlen
    subst hpe
    exact ⟨rfl, rfl⟩
  · have hkeys : ((New replicas hash).Add peers).keys
        = (ringPoints hash replicas peers).map Prod.fst := by
      unfold Map.Add
      rw [if_neg hlen]
      show (([] : List Nat) ++ (virtualPairs hash replicas peers).map
          Prod.fst).insertionSort (· ≤ ·) = _
      rw [List.nil_append]
      exact insertionSort_map_fst _
    have hmap : ((New replicas hash).Add peers).hashMap
        = virtualPairs hash replicas peers := by
      unfold Map.Add
      rw [if_neg hlen]
      show (virtualPairs hash replicas peers).foldl
          (fun acc p => mapAssign acc p.1 p.2) [] = _
      rw [foldl_mapAssign_fresh _ [] (fun k _ => rfl) hinj]
      rw [List.nil_append]
    have hhash : ((New replicas hash).Add peers).hash = hash := by
      unfold Map.Add
      rw [if_neg hlen]
      rfl
    refine ⟨hkeys, ?_⟩
    have hperm : (ringPoints hash replicas peers).Perm
        (virtualPairs hash replicas peers) := List.perm_insertionSort _ _
    cases hc : ringPoints hash replicas peers with
    | nil =>
      have hempty : ((New replicas hash).Add peers).IsEmpty = true := by
        unfold Map.IsEmpty
        rw [hkeys, hc]
        rfl
      unfold Map.Get
      rw [if_pos hempty]
      simp [pickSpec, hc]
    | cons p0 rest =>
      rw [hc] at hperm
      have hkne : ((New replicas hash).Add peers).keys = (p0 :: rest).map Prod.fst := by
        rw [hkeys, hc]
      have hempty : ((New replicas hash).Add peers).IsEmpty = false := by
        unfold Map.IsEmpty
        rw [hkne]
        rfl
      unfold Map.Get
      rw [if_neg (by rw [hempty]; simp)]
      simp only [hkne, hmap, hhash]
      have hidx : sortSearch ((p0 :: rest).map Prod.fst).length
            (fun i => decide (((p0 :: rest).map Prod.fst).getD i 0 ≥ hash key))
          = (p0 :: rest).findIdx (fun pt => decide (pt.1 ≥ hash key)) :=
        (sortSearch_eq_findIdx (fun x => decide (x ≥ hash key))
          ((p0 :: rest).map Prod.fst)).trans
          (findIdx_map_comp Prod.fst (fun x => decide (x ≥ hash key)) (p0 :: rest))
      rw [hidx]
      cases hf : (p0 :: rest).find? (fun pt => decide (pt.1 ≥ hash key)) with
      | some pt =>
        obtain ⟨hlt, hgd⟩ := find?_some_findIdx
          (fun pt => decide (pt.1 ≥ hash key)) ((0 : Nat), "") (p0 :: rest) pt hf
        have hne : ¬ ((p0 :: rest).findIdx (fun pt => decide (pt.1 ≥ hash key))
            = ((p0 :: rest).map Prod.fst).length) := by
          rw [List.length_map]
          omega
        rw [if_neg hne]
        have hgetm : ((p0 :: rest).map Prod.fst).getD
              ((p0 :: rest).findIdx (fun pt => decide (pt.1 ≥ hash key))) 0
            = ((p0 :: rest).getD
              ((p0 :: rest).findIdx (fun pt => decide (pt.1 ≥ hash key)))
              ((0 : Nat), "")).1 :=
          @List.getD_map _ _ (p0 :: rest) ((0 : Nat), "") _ Prod.fst
        rw [hgetm, hgd]
        have hmem : pt ∈ virtualPairs hash replicas peers :=
          hperm.mem_iff.mp (List.mem_of_find?_eq_some hf)
        have hlook : (virtualPairs hash replicas peers).lookup pt.1 = some pt.2 :=
          lookup_eq_some_of_mem_nodup _ pt.1 pt.2 hinj (by simpa using hmem)
        show ((virtualPairs hash replicas peers).lookup pt.1).getD "" = _
        rw [hlook]
        simp [pickSpec, hc, hf]
      | none =>
        have hidxlen := find?_none_findIdx
          (fun pt => decide (pt.1 ≥ hash key)) (p0 :: rest) hf
        have heq : (p0 :: rest).findIdx (fun pt => decide (pt.1 ≥ hash key))
            = ((p0 :: rest).map Prod.fst).length := by
          rw [List.length_map]
          exact hidxlen
        rw [if_pos heq]
        have hmem : p0 ∈ virtualPairs hash replicas peers :=
          hperm.mem_iff.mp (by simp)
        have hlook : (virtualPairs hash replicas peers).lookup p0.1 = some p0.2 :=
          lookup_eq_some_of_mem_nodup _ p0.1 p0.2 hinj (by simpa using hmem)
        show ((virtualPairs hash replicas peers).lookup p0.1).getD "" = _
        rw [hlook]
        simp [pickSpec, hc, hf]

/-- A concrete collision-free table hash for the C4 witness. -/
def testHash (s : String) : Nat :=
  (([("0a", 10), ("1a", 20), ("0b", 30), ("1b", 40), ("x", 25)].lookup s).getD 0)

theorem C4_ring_pick_witness :
    ((New 2 testHash).Add ["a", "b"]).Get "x" = pickSpec testHash 2 ["a", "b"] "x" ∧
    ((New 2 testHash).Add ["a", "b"]).Get "x" = "b" := by
  have h := C4_ring_pick testHash 2 ["a", "b"] "x" (by decide)
  exact ⟨h.2, by decide⟩

end Consistenthash

/-! ## Peer table pruning (`internal/app/peermanager/client.go`) -/

namespace Peermanager

/-- A known-peer record: groupcache address, API address and last-seen
timestamp (Go `time.Time`, modelled as an integer instant). -/
structure PeerEntry where
  GroupcacheAddress : String
  ApiAddress : String
  LastSeen : Int
deriving DecidableEq, Repr

/-- The fields of `PeerStore` that pruning reads and writes: the peer table
keyed by groupcache address, the self address, and the liveness timeout. -/
structure PeerStore where
  peers : List (String × PeerEntry)
  selfGroupcacheAddr : String
  peerTimeoutDuration : Int
deriving DecidableEq, Repr

/-- `GetLivePeerGroupcacheAddrsAndPrune` at instant `now`
(`time.Since(t) = now − t`): iterate the table; self is always kept in the
rebuilt table but never added to the live list; another peer is kept and
listed while `now − LastSeen < peerTimeoutDuration`, otherwise it is
dropped; the live list is sorted (`sort.Strings`, modelled by its sorted
permutation). -/
def GetLivePeerGroupcacheAddrsAndPrune (ps : PeerStore) (now : Int) :
    List String × PeerStore :=
  let r := ps.peers.foldl
    (fun (acc : List String × List (String × PeerEntry)) p =>
      if p.1 = ps.selfGroupcacheAddr then (acc.1, acc.2 ++ [p])
      else if now - p.2.LastSeen < ps.peerTimeoutDuration
      then (acc.1 ++ [p.1], acc.2 ++ [p])
      else acc)
    ([], [])
  (r.1.insertionSort (· ≤ ·), { ps with peers := r.2 })

theorem prune_foldl (self : String) (timeout now : Int) :
    ∀ (l : List (String × PeerEntry)) (acc : List String × List (String × PeerEntry)),
      (l.foldl (fun acc p =>
        if p.1 = self then (acc.1, acc.2 ++ [p])
        else if now - p.2.LastSeen < timeout then (acc.1 ++ [p.1], acc.2 ++ [p])
        else acc) acc)
      = (acc.1 ++ (l.filter
            (fun p => decide (p.1 ≠ self ∧ now - p.2.LastSeen < timeout))).map Prod.fst,
         acc.2 ++ l.filter
            (fun p => decide (p.1 = self ∨ now - p.2.LastSeen < timeout))) := by
  intro l
  induction l with
  | nil =>
    intro acc
    simp
  | cons p t ih =>
    intro acc
    rw [List.foldl_cons]
    by_cases h1 : p.1 = self
    · simp only [if_pos h1, ih, List.filter_cons, h1]
      simp [List.append_assoc]
    · by_cases h2 : now - p.2.LastSeen < timeout
      · simp only [if_neg h1, if_pos h2, ih, List.filter_cons]
        simp [h1, h2, List.append_assoc]
      · simp only [if_neg h1, if_neg h2, ih, List.filter_cons]
        simp [h1, h2]

/-- C8 (amended): the prune drops exactly those non-self entries with
`now − last-seen ≥ peer-timeout` (the source keeps strictly fresher
entries); the self entry is never pruned from the table; and self is never
in the returned live-peer list that feeds the ring. -/
theorem C8_prune_spec (ps : PeerStore) (now : Int) :
    (GetLivePeerGroupcacheAddrsAndPrune ps now).1
      = ((ps.peers.filter (fun p => decide (p.1 ≠ ps.selfGroupcacheAddr ∧
          now - p.2.LastSeen < ps.peerTimeoutDuration))).map
            Prod.fst).insertionSort (· ≤ ·) ∧
    (GetLivePeerGroupcacheAddrsAndPrune ps now).2.peers
      = ps.peers.filter (fun p => decide (p.1 = ps.selfGroupcacheAddr ∨
          now - p.2.LastSeen < ps.peerTimeoutDuration)) ∧
    ps.selfGroupcacheAddr ∉ (GetLivePeerGroupcacheAddrsAndPrune ps now).1 ∧
    (ps.selfGroupcacheAddr ∈ ps.peers.map Prod.fst →
      ps.selfGroupcacheAddr
        ∈ ((GetLivePeerGroupcacheAddrsAndPrune ps now).2.peers.map Prod.fst)) := by
  have hfold := prune_foldl ps.selfGroupcacheAddr ps.peerTimeoutDuration now ps.peers ([], [])
  have h1 : (GetLivePeerGroupcacheAddrsAndPrune ps now).1
      = ((ps.peers.filter (fun p => decide (p.1 ≠ ps.selfGroupcacheAddr ∧
          now - p.2.LastSeen < ps.peerTimeoutDuration))).map
            Prod.fst).insertionSort (· ≤ ·) := by
    show ((ps.peers.foldl _ ([], [])).1).insertionSort (· ≤ ·) = _
    rw [hfold]
    simp
  have h2 : (GetLivePeerGroupcacheAddrsAndPrune ps now).2.peers
      = ps.peers.filter (fun p => decide (p.1 = ps.selfGroupcacheAddr ∨
          now - p.2.LastSeen < ps.peerTimeoutDuration)) := by
    show (ps.peers.foldl _ ([], [])).2 = _
    rw [hfold]
    simp
  refine ⟨h1, h2, ?_, ?_⟩
  · rw [h1]
    intro hmem
    have hmem2 := (List.perm_insertionSort (· ≤ ·) _).mem_iff.mp hmem
    obtain ⟨q, hq, hqf⟩ := List.mem_map.mp hmem2
    have := List.of_mem_filter hq
    rw [hqf] at this
    simp at this
  · intro hmem
    rw [h2]
    obtain ⟨q, hq, hqf⟩ := List.mem_map.mp hmem
    refine List.mem_map.mpr ⟨q, ?_, hqf⟩
    refine List.mem_filter.mpr ⟨hq, ?_⟩
    simp [hqf]

theorem C8_prune_spec_witness :
    (GetLivePeerGroupcacheAddrsAndPrune
        ⟨[("self", ⟨"self", "a1", -100⟩), ("q", ⟨"q", "a2", 10⟩)], "self", 15⟩
        12).2.peers.map Prod.fst = ["self", "q"] ∧
    "self" ∈ (GetLivePeerGroupcacheAddrsAndPrune
        ⟨[("self", ⟨"self", "a1", -100⟩), ("q", ⟨"q", "a2", 10⟩)], "self", 15⟩
        12).2.peers.map Prod.fst := by
  have h := C8_prune_spec
    ⟨[("self", ⟨"self", "a1", -100⟩), ("q", ⟨"q", "a2", 10⟩)], "self", 15⟩ 12
  constructor
  · rw [h.2.1]
    decide
  · exact h.2.2.2 (by decide)

/-- C8 counterexample: a peer whose staleness equals the timeout exactly
(`now − last-seen = peer-timeout`, here 15 − 0 = 15) does not satisfy the
claim's drop condition `now − last-seen > peer-timeout`, yet the source
drops it: the kept-peer test is `time.Since(LastSeen) < timeout`, so the
boundary case is pruned. -/
theorem C8_boundary_counterexample :
    ¬ ((15 : Int) - 0 > 15) ∧
    (GetLivePeerGroupcacheAddrsAndPrune
        ⟨[("self", ⟨"self", "a1", 0⟩), ("p", ⟨"p", "a2", 0⟩)], "self", 15⟩ 15).1 = [] ∧
    (GetLivePeerGroupcacheAddrsAndPrune
        ⟨[("self", ⟨"self", "a1", 0⟩), ("p", ⟨"p", "a2", 0⟩)], "self", 15⟩
        15).2.peers.map Prod.fst = ["self"] := by
  refine ⟨by decide, by decide, by decide⟩

end Peermanager

/-! ## Flight collapser (`singleflight/singleflight.go`)

An interleaving model of `Group.Do`.  The mutex-protected regions of the
source are single atomic steps (the mutex serialises them); the unprotected
actions are their own steps:

* `enterNew` — the first locked section when the key is absent: create the
  `call` (with its `WaitGroup` at 1), install it in `g.m`, unlock; the
  thread then runs `fn` (phase `running`).
* `enterWait` — the first locked section when the key is present: the
  thread becomes a waiter on that call (`c.wg.Wait()`).
* `finishFn` — `c.val, c.err = fn()` followed by `c.wg.Done()`: the call's
  result slot is filled and waiters become releasable; the key is still in
  the map (phase moves to `deleting`).
* `deleteKey` — the second locked section: `delete(g.m, key)`; the runner
  then returns its result.
* `waitDone` — a waiter's `Wait()` returns (only possible once the result
  slot is filled) and the waiter returns `(c.val, c.err)`. -/

namespace Singleflight

/-- The shared result slot of one `call`.  `result` is `some r` from the
moment the runner has executed `fn` and `wg.Done()`; `runner` is the thread
that created the call. -/
structure CallSt (V : Type) where
  result : Option V
  runner : Nat
deriving DecidableEq, Repr

/-- A thread's position inside `Do`. -/
inductive Phase (V : Type) where
  | start
  | running (cid : Nat)
  | deleting (cid : Nat)
  | waiting (cid : Nat)
  | finished (r : V)
deriving DecidableEq, Repr

/-- Global state: the in-flight map `g.m` (key → call id), every call ever
created (ids index this list), and each thread's phase. -/
structure Sys (V : Type) where
  flights : List (String × Nat)
  calls : List (CallSt V)
  phases : List (Phase V)
deriving DecidableEq, Repr

/-- Per-thread data: the key it calls `Do` with and the value its `fn`
would produce. -/
structure ThreadSpec (V : Type) where
  key : String
  fnRes : V
deriving DecidableEq, Repr

/-- All threads outside `Do`, no flights, no calls. -/
def initSys (V : Type) (n : Nat) : Sys V :=
  ⟨[], [], List.replicate n Phase.start⟩

/-- One atomic step of thread `t`. -/
inductive Step {V : Type} (env : List (ThreadSpec V)) (t : Nat) :
    Sys V → Sys V → Prop where
  | enterNew (s : Sys V) (ts : ThreadSpec V)
      (hts : env[t]? = some ts)
      (hph : s.phases[t]? = some Phase.start)
      (hfl : s.flights.lookup ts.key = none) :
      Step env t s
        ⟨s.flights ++ [(ts.key, s.calls.length)],
         s.calls ++ [⟨none, t⟩],
         s.phases.set t (Phase.running s.calls.length)⟩
  | enterWait (s : Sys V) (ts : ThreadSpec V) (cid : Nat)
      (hts : env[t]? = some ts)
      (hph : s.phases[t]? = some Phase.start)
      (hfl : s.flights.lookup ts.key = some cid) :
      Step env t s ⟨s.flights, s.calls, s.phases.set t (Phase.waiting cid)⟩
  | finishFn (s : Sys V) (ts : ThreadSpec V) (cid : Nat) (c : CallSt V)
      (hts : env[t]? = some ts)
      (hph : s.phases[t]? = some (Phase.running cid))
      (hc : s.calls[cid]? = some c) :
      Step env t s
        ⟨s.flights, s.calls.set cid ⟨some ts.fnRes, c.runner⟩,
         s.phases.set t (Phase.deleting cid)⟩
  | deleteKey (s : Sys V) (ts : ThreadSpec V) (cid : Nat)
      (hts : env[t]? = some ts)
      (hph : s.phases[t]? = some (Phase.deleting cid)) :
      Step env t s
        ⟨s.flights.filter (fun p => !(p.1 == ts.key)), s.calls,
         s.phases.set t (Phase.finished ts.fnRes)⟩
  | waitDone (s : Sys V) (cid : Nat) (c : CallSt V) (r : V)
      (hph : s.phases[t]? = some (Phase.waiting cid))
      (hc : s.calls[cid]? = some c)
      (hr : c.result = some r) :
      Step env t s ⟨s.flights, s.calls, s.phases.set t (Phase.finished r)⟩

/-- States reachable from the initial state by interleaved thread steps. -/
def Reachable {V : Type} (env : List (ThreadSpec V)) (s : Sys V) : Prop :=
  Relation.ReflTransGen (fun a b => ∃ t, Step env t a b) (initSys V env.length) s

/-- Thread `t` is executing `fn` for call `cid`, or has finished `fn` but
not yet removed the key. -/
def RunDel {V : Type} (s : Sys V) (t cid : Nat) : Prop :=
  s.phases[t]? = some (Phase.running cid) ∨ s.phases[t]? = some (Phase.deleting cid)

/-! ### Association-list helper lemmas -/

theorem lookup_mem {β : Type _} :
    ∀ (l : List (String × β)) (k : String) (v : β),
      l.lookup k = some v → (k, v) ∈ l := by
  intro l
  induction l with
  | nil => intro k v h; simp [List.lookup] at h
  | cons p t ih =>
    intro k v h
    obtain ⟨pk, pv⟩ := p
    by_cases hk : k == pk
    · have hkk : k = pk := by simpa using hk
      rw [List.lookup] at h
      rw [hk] at h
      cases h
      subst hkk
      simp
    · have hkf : (k == pk) = false := by simpa using hk
      rw [List.lookup] at h
      rw [hkf] at h
      exact List.mem_cons_of_mem _ (ih k v h)

theorem lookup_append_some {β : Type _} (l l' : List (String × β)) (k : String)
    (v : β) (h : l.lookup k = some v) : (l ++ l').lookup k = some v := by
  rw [List.lookup_append, h]
  rfl

theorem lookup_filter_out {β : Type _} :
    ∀ (l : List (String × β)) (k : String),
      (l.filter (fun p => !(p.1 == k))).lookup k = none := by
  intro l
  induction l with
  | nil => intro k; rfl
  | cons p t ih =>
    intro k
    obtain ⟨pk, pv⟩ := p
    by_cases hk : pk == k
    · simp only [List.filter_cons, hk]
      simpa using ih k
    · have hkf : (pk == k) = false := by simpa using hk
      simp only [List.filter_cons, hkf]
      show (((pk, pv) :: t.filter (fun p => !(p.1 == k))).lookup k) = none
      rw [List.lookup]
      have hk2 : (k == pk) = false := by
        have : pk ≠ k := by simpa using hk
        simpa using (Ne.symm this)
      rw [hk2]
      exact ih k

theorem lookup_filter_other {β : Type _} :
    ∀ (l : List (String × β)) (k k' : String), k' ≠ k →
      (l.filter (fun p => !(p.1 == k))).lookup k' = l.lookup k' := by
  intro l
  induction l with
  | nil => intro k k' _; rfl
  | cons p t ih =>
    intro k k' hne
    obtain ⟨pk, pv⟩ := p
    by_cases hk : pk == k
    · have hkk : pk = k := by simpa using hk
      simp only [List.filter_cons, hk]
      have hk2 : (k' == pk) = false := by
        subst hkk
        simpa using hne
      simp only [Bool.not_true, List.lookup]
      rw [hk2]
      exact ih k k' hne
    · have hkf : (pk == k) = false := by simpa using hk
      simp only [List.filter_cons, hkf]
      show (((pk, pv) :: t.filter (fun p => !(p.1 == k))).lookup k')
        = (((pk, pv) :: t).lookup k')
      rw [List.lookup, List.lookup]
      by_cases hk3 : k' == pk
      · rw [hk3]
      · have hk3f : (k' == pk) = false := by simpa using hk3
        rw [hk3f]
        exact ih k k' hne

theorem getElem?_some_lt {α : Type _} {l : List α} {n : Nat} {a : α}
    (h : l[n]? = some a) : n < l.length :=
  (List.getElem?_eq_some.mp h).1

theorem not_mem_map_fst_of_lookup_none {β : Type _} :
    ∀ (l : List (String × β)) (k : String),
      l.lookup k = none → k ∉ l.map Prod.fst := by
  intro l
  induction l with
  | nil => intro k _ h; simp at h
  | cons p t ih =>
    intro k h hmem
    obtain ⟨pk, pv⟩ := p
    rw [List.lookup] at h
    by_cases hk : k == pk
    · rw [hk] at h
      cases h
    · have hkf : (k == pk) = false := by simpa using hk
      rw [hkf] at h
      rcases List.mem_cons.mp hmem with heq | hmem'
      · exact absurd (by simpa using heq) (by simpa using hk)
      · exact ih k h hmem'

/-- Ownership facts tied to a thread in the running/deleting window: its
key maps to its call in `g.m`, and it is recorded as the call's runner. -/
def Owner {V : Type} (env : List (ThreadSpec V)) (s : Sys V) (t cid : Nat) : Prop :=
  (∃ ts, env[t]? = some ts ∧ s.flights.lookup ts.key = some cid) ∧
  (∃ c, s.calls[cid]? = some c ∧ c.runner = t)

/-- The inductive invariant of the collapser's transition system. -/
structure Inv {V : Type} (env : List (ThreadSpec V)) (s : Sys V) : Prop where
  phlen : s.phases.length = env.length
  owner : ∀ t cid, RunDel s t cid → Owner env s t cid
  flrange : ∀ pr, pr ∈ s.flights → pr.2 < s.calls.length
  flnodup : (s.flights.map Prod.fst).Nodup
  resfn : ∀ (cid : Nat) (c : CallSt V) (r : V), s.calls[cid]? = some c →
    c.result = some r → ∃ ts, env[c.runner]? = some ts ∧ r = ts.fnRes
  waitlt : ∀ (t cid : Nat), s.phases[t]? = some (Phase.waiting cid) →
    cid < s.calls.length

theorem inv_init {V : Type} (env : List (ThreadSpec V)) :
    Inv env (initSys V env.length) := by
  constructor
  · simp [initSys]
  · intro t cid h
    rcases h with h | h <;>
    · simp only [initSys, List.getElem?_replicate] at h
      split at h <;> simp_all
  · intro pr h
    simp [initSys] at h
  · simp [initSys]
  · intro cid c r h
    simp [initSys] at h
  · intro t cid h
    simp only [initSys, List.getElem?_replicate] at h
    split at h <;> simp_all

theorem inv_preserved {V : Type} {env : List (ThreadSpec V)} {t : Nat}
    {s s' : Sys V} (hI : Inv env s) (hstep : Step env t s s') : Inv env s' := by
  cases hstep with
  | enterNew ts hts hph hfl =>
    have htlt : t < s.phases.length := getElem?_some_lt hph
    constructor
    · simp [List.length_set, hI.phlen]
    · intro t' cid h
      by_cases htt : t' = t
      · subst htt
        rcases h with h | h <;> rw [show (Sys.mk (s.flights ++ [(ts.key, s.calls.length)])
            (s.calls ++ [⟨none, t'⟩])
            (s.phases.set t' (Phase.running s.calls.length))).phases
            = s.phases.set t' (Phase.running s.calls.length) from rfl,
          List.getElem?_set_self htlt] at h
        · cases h
          constructor
          · refine ⟨ts, hts, ?_⟩
            rw [List.lookup_append, hfl]
            simp [List.lookup]
          · exact ⟨⟨none, t'⟩, List.getElem?_concat_length _ _, rfl⟩
        · cases h
      · have hset : (s.phases.set t (Phase.running s.calls.length))[t']?
            = s.phases[t']? := List.getElem?_set_ne (fun h0 => htt h0.symm)
        have h0 : RunDel s t' cid := by
          rcases h with h | h
          · exact Or.inl (by rw [← hset]; exact h)
          · exact Or.inr (by rw [← hset]; exact h)
        obtain ⟨⟨ts', hts', hfl'⟩, ⟨c, hc, hr⟩⟩ := hI.owner t' cid h0
        constructor
        · exact ⟨ts', hts', lookup_append_some _ _ _ _ hfl'⟩
        · exact ⟨c, by rw [List.getElem?_append_left (getElem?_some_lt hc)]; exact hc, hr⟩
    · intro pr hpr
      rcases List.mem_append.mp hpr with h | h
      · have := hI.flrange pr h
        simp only [List.length_append, List.length_cons, List.length_nil]
        omega
      · simp only [List.mem_singleton] at h
        subst h
        simp only [List.length_append, List.length_cons, List.length_nil]
        omega
    · show ((s.flights ++ [(ts.key, s.calls.length)]).map Prod.fst).Nodup
      rw [List.map_append]
      rw [List.nodup_append]
      refine ⟨hI.flnodup, by simp, ?_⟩
      intro a ha hb
      simp only [List.map_cons, List.map_nil, List.mem_singleton] at hb
      subst hb
      exact not_mem_map_fst_of_lookup_none _ _ hfl ha
    · intro cid c r hc hr
      by_cases hlt : cid < s.calls.length
      · rw [List.getElem?_append_left hlt] at hc
        exact hI.resfn cid c r hc hr
      · have hlen : cid < s.calls.length + 1 := by
          have := getElem?_some_lt hc
          simpa using this
        have hcid : cid = s.calls.length := by omega
        subst hcid
        rw [List.getElem?_concat_length] at hc
        cases hc
        cases hr
    · intro t' cid h
      by_cases htt : t' = t
      · subst htt
        rw [show (Sys.mk (s.flights ++ [(ts.key, s.calls.length)])
            (s.calls ++ [⟨none, t'⟩])
            (s.phases.set t' (Phase.running s.calls.length))).phases
            = s.phases.set t' (Phase.running s.calls.length) from rfl,
          List.getElem?_set_self htlt] at h
        cases h
      · have hset : (s.phases.set t (Phase.running s.calls.length))[t']?
            = s.phases[t']? := List.getElem?_set_ne (fun h0 => htt h0.symm)
        rw [show (Sys.mk (s.flights ++ [(ts.key, s.calls.length)])
            (s.calls ++ [⟨none, t⟩])
            (s.phases.set t (Phase.running s.calls.length))).phases
            = s.phases.set t (Phase.running s.calls.length) from rfl, hset] at h
        have := hI.waitlt t' cid h
        simp only [List.length_append, List.length_cons, List.length_nil]
        omega
  | enterWait ts cid hts hph hfl =>
    have htlt : t < s.phases.length := getElem?_some_lt hph
    constructor
    · simp [List.length_set, hI.phlen]
    · intro t' cid' h
      by_cases htt : t' = t
      · subst htt
        rcases h with h | h <;>
          rw [show (Sys.mk s.flights s.calls
              (s.phases.set t' (Phase.waiting cid))).phases
              = s.phases.set t' (Phase.waiting cid) from rfl,
            List.getElem?_set_self htlt] at h <;> cases h
      · have hset : (s.phases.set t (Phase.waiting cid))[t']?
            = s.phases[t']? := List.getElem?_set_ne (fun h0 => htt h0.symm)
        have h0 : RunDel s t' cid' := by
          rcases h with h | h
          · exact Or.inl (by rw [← hset]; exact h)
          · exact Or.inr (by rw [← hset]; exact h)
        exact hI.owner t' cid' h0
    · exact hI.flrange
    · exact hI.flnodup
    · exact hI.resfn
    · intro t' cid' h
      by_cases htt : t' = t
      · subst htt
        rw [show (Sys.mk s.flights s.calls
            (s.phases.set t' (Phase.waiting cid))).phases
            = s.phases.set t' (Phase.waiting cid) from rfl,
          List.getElem?_set_self htlt] at h
        cases h
        exact hI.flrange _ (lookup_mem _ _ _ hfl)
      · have hset : (s.phases.set t (Phase.waiting cid))[t']?
            = s.phases[t']? := List.getElem?_set_ne (fun h0 => htt h0.symm)
        rw [show (Sys.mk s.flights s.calls
            (s.phases.set t (Phase.waiting cid))).phases
            = s.phases.set t (Phase.waiting cid) from rfl, hset] at h
        exact hI.waitlt t' cid' h
  | finishFn ts cid c hts hph hc =>
    have htlt : t < s.phases.length := getElem?_some_lt hph
    have hcr : c.runner = t := by
      obtain ⟨-, ⟨c', hc', hr'⟩⟩ := hI.owner t cid (Or.inl hph)
      rw [hc] at hc'
      cases hc'
      exact hr'
    constructor
    · simp [List.length_set, hI.phlen]
    · intro t' cid' h
      have hph' : ∀ q, ((s.phases.set t (Phase.deleting cid))[t']? = some q) →
          (t' = t ∧ (q = Phase.deleting cid)) ∨ (t' ≠ t ∧ s.phases[t']? = some q) := by
        intro q hq
        by_cases htt : t' = t
        · subst htt
          rw [List.getElem?_set_self htlt] at hq
          cases hq
          exact Or.inl ⟨rfl, rfl⟩
        · rw [List.getElem?_set_ne (fun h0 => htt h0.symm)] at hq
          exact Or.inr ⟨htt, hq⟩
      have hrd : (t' = t ∧ cid' = cid) ∨ (t' ≠ t ∧ RunDel s t' cid') := by
        rcases h with h | h
        · rcases hph' _ h with ⟨h1, h2⟩ | ⟨h1, h2⟩
          · cases h2
          · exact Or.inr ⟨h1, Or.inl h2⟩
        · rcases hph' _ h with ⟨h1, h2⟩ | ⟨h1, h2⟩
          · cases h2
            exact Or.inl ⟨h1, rfl⟩
          · exact Or.inr ⟨h1, Or.inr h2⟩
      rcases hrd with ⟨h1, h2⟩ | ⟨h1, h2⟩
      · subst h1
        subst h2
        obtain ⟨hfl', -⟩ := hI.owner t' cid' (Or.inl hph)
        refine ⟨hfl', ?_⟩
        exact ⟨⟨some ts.fnRes, c.runner⟩,
          List.getElem?_set_self (getElem?_some_lt hc), hcr⟩
      · obtain ⟨⟨ts', hts', hfl'⟩, ⟨c', hc', hr'⟩⟩ := hI.owner t' cid' h2
        refine ⟨⟨ts', hts', hfl'⟩, ?_⟩
        by_cases hcc : cid' = cid
        · exfalso
          subst hcc
          rw [hc] at hc'
          cases hc'
          exact h1 (hr'.symm.trans hcr)
        · exact ⟨c', by rw [List.getElem?_set_ne (fun h0 => hcc h0.symm)]; exact hc', hr'⟩
    · intro pr hpr
      have := hI.flrange pr hpr
      simpa using this
    · exact hI.flnodup
    · intro cid' c' r hc' hr'
      by_cases hcc : cid' = cid
      · subst hcc
        rw [List.getElem?_set_self (getElem?_some_lt hc)] at hc'
        cases hc'
        simp only at hr'
        cases hr'
        exact ⟨ts, by rw [hcr]; exact hts, rfl⟩
      · rw [List.getElem?_set_ne (fun h0 => hcc h0.symm)] at hc'
        exact hI.resfn cid' c' r hc' hr'
    · intro t' cid' h
      by_cases htt : t' = t
      · subst htt
        rw [show (Sys.mk s.flights (s.calls.set cid ⟨some ts.fnRes, c.runner⟩)
            (s.phases.set t' (Phase.deleting cid))).phases
            = s.phases.set t' (Phase.deleting cid) from rfl,
          List.getElem?_set_self htlt] at h
        cases h
      · have hset : (s.phases.set t (Phase.deleting cid))[t']?
            = s.phases[t']? := List.getElem?_set_ne (fun h0 => htt h0.symm)
        rw [show (Sys.mk s.flights (s.calls.set cid ⟨some ts.fnRes, c.runner⟩)
            (s.phases.set t (Phase.deleting cid))).phases
            = s.phases.set t (Phase.deleting cid) from rfl, hset] at h
        have := hI.waitlt t' cid' h
        simpa using this
  | deleteKey ts cid hts hph =>
    have htlt : t < s.phases.length := getElem?_some_lt hph
    constructor
    · simp [List.length_set, hI.phlen]
    · intro t' cid' h
      by_cases htt : t' = t
      · subst htt
        rcases h with h | h <;>
          rw [show (Sys.mk (s.flights.filter (fun p => !(p.1 == ts.key))) s.calls
              (s.phases.set t' (Phase.finished ts.fnRes))).phases
              = s.phases.set t' (Phase.finished ts.fnRes) from rfl,
            List.getElem?_set_self htlt] at h <;> cases h
      · have hset : (s.phases.set t (Phase.finished ts.fnRes))[t']?
            = s.phases[t']? := List.getElem?_set_ne (fun h0 => htt h0.symm)
        have h0 : RunDel s t' cid' := by
          rcases h with h | h
          · exact Or.inl (by rw [← hset]; exact h)
          · exact Or.inr (by rw [← hset]; exact h)
        obtain ⟨⟨ts', hts', hfl'⟩, hcall⟩ := hI.owner t' cid' h0
        refine ⟨⟨ts', hts', ?_⟩, hcall⟩
        have hkne : ts'.key ≠ ts.key := by
          intro hkeq
          obtain ⟨⟨tsd, htsd, hfld⟩, ⟨cd, hcd, hrd⟩⟩ := hI.owner t cid (Or.inr hph)
          rw [hts] at htsd
          cases htsd
          rw [hkeq, hfld] at hfl'
          cases hfl'
          obtain ⟨c', hc', hr'⟩ := hcall
          rw [hcd] at hc'
          cases hc'
          exact htt (hr'.symm.trans hrd)
        rw [lookup_filter_other _ _ _ hkne]
        exact hfl'
    · intro pr hpr
      exact hI.flrange pr (List.mem_of_mem_filter hpr)
    · exact hI.flnodup.sublist ((List.filter_sublist _).map Prod.fst)
    · exact hI.resfn
    · intro t' cid' h
      by_cases htt : t' = t
      · subst htt
        rw [show (Sys.mk (s.flights.filter (fun p => !(p.1 == ts.key))) s.calls
            (s.phases.set t' (Phase.finished ts.fnRes))).phases
            = s.phases.set t' (Phase.finished ts.fnRes) from rfl,
          List.getElem?_set_self htlt] at h
        cases h
      · have hset : (s.phases.set t (Phase.finished ts.fnRes))[t']?
            = s.phases[t']? := List.getElem?_set_ne (fun h0 => htt h0.symm)
        rw [show (Sys.mk (s.flights.filter (fun p => !(p.1 == ts.key))) s.calls
            (s.phases.set t (Phase.finished ts.fnRes))).phases
            = s.phases.set t (Phase.finished ts.fnRes) from rfl, hset] at h
        exact hI.waitlt t' cid' h
  | waitDone cid c r hph hc hr =>
    have htlt : t < s.phases.length := getElem?_some_lt hph
    constructor
    · simp [List.length_set, hI.phlen]
    · intro t' cid' h
      by_cases htt : t' = t
      · subst htt
        rcases h with h | h <;>
          rw [show (Sys.mk s.flights s.calls
              (s.phases.set t' (Phase.finished r))).phases
              = s.phases.set t' (Phase.finished r) from rfl,
            List.getElem?_set_self htlt] at h <;> cases h
      · have hset : (s.phases.set t (Phase.finished r))[t']?
            = s.phases[t']? := List.getElem?_set_ne (fun h0 => htt h0.symm)
        have h0 : RunDel s t' cid' := by
          rcases h with h | h
          · exact Or.inl (by rw [← hset]; exact h)
          · exact Or.inr (by rw [← hset]; exact h)
        exact hI.owner t' cid' h0
    · exact hI.flrange
    · exact hI.flnodup
    · exact hI.resfn
    · intro t' cid' h
      by_cases htt : t' = t
      · subst htt
        rw [show (Sys.mk s.flights s.calls
            (s.phases.set t' (Phase.finished r))).phases
            = s.phases.set t' (Phase.finished r) from rfl,
          List.getElem?_set_self htlt] at h
        cases h
      · have hset : (s.phases.set t (Phase.finished r))[t']?
            = s.phases[t']? := List.getElem?_set_ne (fun h0 => htt h0.symm)
        rw [show (Sys.mk s.flights s.calls
            (s.phases.set t (Phase.finished r))).phases
            = s.phases.set t (Phase.finished r) from rfl, hset] at h
        exact hI.waitlt t' cid' h

theorem inv_reachable {V : Type} {env : List (ThreadSpec V)} {s : Sys V}
    (h : Reachable env s) : Inv env s := by
  unfold Reachable at h
  induction h with
  | refl => exact inv_init env
  | tail hsteps hstep ih =>
    obtain ⟨t, hstep⟩ := hstep
    exact inv_preserved ih hstep

/-- C2: in every reachable state of the collapser, (1) two distinct threads
with the same key are never simultaneously inside (or just past) `fn` —
`fn` runs at most once per flight, by its unique runner; (2) a releasable
waiter's value is exactly the runner's `fn` result, so all callers of a
flight observe the identical `(value, err)`; (3) a waiter whose call's
result slot is empty has no step — it blocks until `fn` completes; (4) a
caller that arrives while a flight for its key is in the map can only join
it as a waiter (it never starts a second `fn`). -/
theorem C2_flight_collapse {V : Type} (env : List (ThreadSpec V)) (s : Sys V)
    (hreach : Reachable env s) :
    (∀ (t1 t2 c1 c2 : Nat) (ts1 ts2 : ThreadSpec V), t1 ≠ t2 →
      env[t1]? = some ts1 → env[t2]? = some ts2 → ts1.key = ts2.key →
      RunDel s t1 c1 → RunDel s t2 c2 → False) ∧
    (∀ (t cid : Nat) (c : CallSt V) (r : V),
      s.phases[t]? = some (Phase.waiting cid) → s.calls[cid]? = some c →
      c.result = some r → ∃ ts, env[c.runner]? = some ts ∧ r = ts.fnRes) ∧
    (∀ (t cid : Nat) (c : CallSt V),
      s.phases[t]? = some (Phase.waiting cid) → s.calls[cid]? = some c →
      c.result = none → ∀ s' : Sys V, ¬ Step env t s s') ∧
    (∀ (t cid : Nat) (ts : ThreadSpec V) (s' : Sys V),
      s.phases[t]? = some Phase.start → env[t]? = some ts →
      s.flights.lookup ts.key = some cid → Step env t s s' →
      s' = ⟨s.flights, s.calls, s.phases.set t (Phase.waiting cid)⟩) := by
  have hI := inv_reachable hreach
  refine ⟨?_, ?_, ?_, ?_⟩
  · intro t1 t2 c1 c2 ts1 ts2 hne h1 h2 hkey hr1 hr2
    obtain ⟨⟨ts1', hts1', hfl1⟩, ⟨ca, hca, hra⟩⟩ := hI.owner t1 c1 hr1
    obtain ⟨⟨ts2', hts2', hfl2⟩, ⟨cb, hcb, hrb⟩⟩ := hI.owner t2 c2 hr2
    rw [h1] at hts1'
    rw [h2] at hts2'
    cases hts1'
    cases hts2'
    rw [hkey, hfl2] at hfl1
    cases hfl1
    rw [hca] at hcb
    cases hcb
    exact hne (hra.symm.trans hrb)
  · intro t cid c r hph hc hr
    exact hI.resfn cid c r hc hr
  · intro t cid c hph hc hres s' hstep
    cases hstep with
    | enterNew ts hts hph' hfl =>
      rw [hph] at hph'
      cases hph'
    | enterWait ts cid' hts hph' hfl =>
      rw [hph] at hph'
      cases hph'
    | finishFn ts cid' c' hts hph' hc' =>
      rw [hph] at hph'
      cases hph'
    | deleteKey ts cid' hts hph' =>
      rw [hph] at hph'
      cases hph'
    | waitDone cid' c' r hph' hc' hr' =>
      rw [hph] at hph'
      cases hph'
      rw [hc] at hc'
      cases hc'
      rw [hres] at hr'
      cases hr'
  · intro t cid ts s' hph hts hfl hstep
    cases hstep with
    | enterNew ts' hts' hph' hfl' =>
      rw [hts] at hts'
      cases hts'
      rw [hfl] at hfl'
      cases hfl'
    | enterWait ts' cid' hts' hph' hfl' =>
      rw [hts] at hts'
      cases hts'
      rw [hfl] at hfl'
      cases hfl'
      rfl
    | finishFn ts' cid' c' hts' hph' hc' =>
      rw [hph] at hph'
      cases hph'
    | deleteKey ts' cid' hts' hph' =>
      rw [hph] at hph'
      cases hph'
    | waitDone cid' c' r hph' hc' hr' =>
      rw [hph] at hph'
      cases hph'

theorem C2_flight_collapse_witness :
    ∃ ts : ThreadSpec Nat,
      ([⟨"k", 1⟩, ⟨"k", 2⟩] : List (ThreadSpec Nat))[(0 : Nat)]? = some ts ∧
        1 = ts.fnRes := by
  have h1 : Step ([⟨"k", 1⟩, ⟨"k", 2⟩] : List (ThreadSpec Nat)) 0 (initSys Nat 2)
      ⟨[("k", 0)], [⟨none, 0⟩], [Phase.running 0, Phase.start]⟩ :=
    Step.enterNew _ ⟨"k", 1⟩ rfl rfl rfl
  have h2 : Step ([⟨"k", 1⟩, ⟨"k", 2⟩] : List (ThreadSpec Nat)) 1
      ⟨[("k", 0)], [⟨none, 0⟩], [Phase.running 0, Phase.start]⟩
      ⟨[("k", 0)], [⟨none, 0⟩], [Phase.running 0, Phase.waiting 0]⟩ :=
    Step.enterWait _ ⟨"k", 2⟩ 0 rfl rfl rfl
  have h3 : Step ([⟨"k", 1⟩, ⟨"k", 2⟩] : List (ThreadSpec Nat)) 0
      ⟨[("k", 0)], [⟨none, 0⟩], [Phase.running 0, Phase.waiting 0]⟩
      ⟨[("k", 0)], [⟨some 1, 0⟩], [Phase.deleting 0, Phase.waiting 0]⟩ :=
    Step.finishFn _ ⟨"k", 1⟩ 0 ⟨none, 0⟩ rfl rfl rfl
  have hreach : Reachable ([⟨"k", 1⟩, ⟨"k", 2⟩] : List (ThreadSpec Nat))
      ⟨[("k", 0)], [⟨some 1, 0⟩], [Phase.deleting 0, Phase.waiting 0]⟩ :=
    Relation.ReflTransGen.tail (Relation.ReflTransGen.tail
      (Relation.ReflTransGen.tail Relation.ReflTransGen.refl ⟨0, h1⟩) ⟨1, h2⟩) ⟨0, h3⟩
  exact (C2_flight_collapse _ _ hreach).2.1 1 0 ⟨some 1, 0⟩ 1 rfl rfl rfl

/-- C7 counterexample: a reachable state in which the waiting caller
(thread 1) has already been released and returned the flight's result,
while the key "k" is still in the in-flight map: in the source,
`c.wg.Done()` releases waiters before `delete(g.m, key)` runs, so the key
is removed after waiters are released, not before. -/
theorem C7_release_before_removal_counterexample :
    Reachable ([⟨"k", 1⟩, ⟨"k", 2⟩] : List (ThreadSpec Nat))
      ⟨[("k", 0)], [⟨some 1, 0⟩], [Phase.deleting 0, Phase.finished 1]⟩ ∧
    (⟨[("k", 0)], [⟨some 1, 0⟩],
      [Phase.deleting 0, Phase.finished 1]⟩ : Sys Nat).phases[1]?
      = some (Phase.finished 1) ∧
    (⟨[("k", 0)], [⟨some 1, 0⟩],
      [Phase.deleting 0, Phase.finished 1]⟩ : Sys Nat).flights.lookup "k"
      = some 0 := by
  have h1 : Step ([⟨"k", 1⟩, ⟨"k", 2⟩] : List (ThreadSpec Nat)) 0 (initSys Nat 2)
      ⟨[("k", 0)], [⟨none, 0⟩], [Phase.running 0, Phase.start]⟩ :=
    Step.enterNew _ ⟨"k", 1⟩ rfl rfl rfl
  have h2 : Step ([⟨"k", 1⟩, ⟨"k", 2⟩] : List (ThreadSpec Nat)) 1
      ⟨[("k", 0)], [⟨none, 0⟩], [Phase.running 0, Phase.start]⟩
      ⟨[("k", 0)], [⟨none, 0⟩], [Phase.running 0, Phase.waiting 0]⟩ :=
    Step.enterWait _ ⟨"k", 2⟩ 0 rfl rfl rfl
  have h3 : Step ([⟨"k", 1⟩, ⟨"k", 2⟩] : List (ThreadSpec Nat)) 0
      ⟨[("k", 0)], [⟨none, 0⟩], [Phase.running 0, Phase.waiting 0]⟩
      ⟨[("k", 0)], [⟨some 1, 0⟩], [Phase.deleting 0, Phase.waiting 0]⟩ :=
    Step.finishFn _ ⟨"k", 1⟩ 0 ⟨none, 0⟩ rfl rfl rfl
  have h4 : Step ([⟨"k", 1⟩, ⟨"k", 2⟩] : List (ThreadSpec Nat)) 1
      ⟨[("k", 0)], [⟨some 1, 0⟩], [Phase.deleting 0, Phase.waiting 0]⟩
      ⟨[("k", 0)], [⟨some 1, 0⟩], [Phase.deleting 0, Phase.finished 1]⟩ :=
    Step.waitDone _ 0 ⟨some 1, 0⟩ 1 rfl rfl rfl
  refine ⟨?_, rfl, rfl⟩
  exact Relation.ReflTransGen.tail (Relation.ReflTransGen.tail
    (Relation.ReflTransGen.tail (Relation.ReflTransGen.tail
      Relation.ReflTransGen.refl ⟨0, h1⟩) ⟨1, h2⟩) ⟨0, h3⟩) ⟨1, h4⟩

/-- C7 (amended): once `fn` returns, waiters are released first — the
completion step (`c.val, c.err = fn()`; `c.wg.Done()`) leaves the in-flight
map unchanged — and the key is removed afterwards by the runner's delete
step, before its `Do` returns; a caller that arrives after the removal
(key absent) initiates a fresh invocation of `fn` as the runner of a new
call, while a caller that arrives before the removal (key present) joins
the existing call as a waiter instead of invoking `fn`. -/
theorem C7_removal_after_release {V : Type} (env : List (ThreadSpec V)) :
    (∀ (s s' : Sys V) (t cid : Nat), Step env t s s' →
      s.phases[t]? = some (Phase.running cid) → s'.flights = s.flights) ∧
    (∀ (s s' : Sys V) (t cid : Nat) (ts : ThreadSpec V), Step env t s s' →
      s.phases[t]? = some (Phase.deleting cid) → env[t]? = some ts →
      s'.flights.lookup ts.key = none ∧
        s'.phases[t]? = some (Phase.finished ts.fnRes)) ∧
    (∀ (s s' : Sys V) (t : Nat) (ts : ThreadSpec V), Step env t s s' →
      s.phases[t]? = some Phase.start → env[t]? = some ts →
      s.flights.lookup ts.key = none →
      s' = ⟨s.flights ++ [(ts.key, s.calls.length)], s.calls ++ [⟨none, t⟩],
        s.phases.set t (Phase.running s.calls.length)⟩) ∧
    (∀ (s s' : Sys V) (t cid : Nat) (ts : ThreadSpec V), Step env t s s' →
      s.phases[t]? = some Phase.start → env[t]? = some ts →
      s.flights.lookup ts.key = some cid →
      s' = ⟨s.flights, s.calls, s.phases.set t (Phase.waiting cid)⟩) := by
  refine ⟨?_, ?_, ?_, ?_⟩
  · intro s s' t cid hstep hph
    cases hstep with
    | enterNew ts hts hph' hfl =>
      rw [hph] at hph'
      cases hph'
    | enterWait ts cid' hts hph' hfl =>
      rw [hph] at hph'
    | finishFn ts cid' c hts hph' hc => rfl
    | deleteKey ts cid' hts hph' =>
      rw [hph] at hph'
      cases hph'
    | waitDone cid' c r hph' hc hr =>
      rw [hph] at hph'
  · intro s s' t cid ts hstep hph hts
    cases hstep with
    | enterNew ts' hts' hph' hfl =>
      rw [hph] at hph'
      cases hph'
    | enterWait ts' cid' hts' hph' hfl =>
      rw [hph] at hph'
      cases hph'
    | finishFn ts' cid' c hts' hph' hc =>
      rw [hph] at hph'
      cases hph'
    | deleteKey ts' cid' hts' hph' =>
      rw [hts] at hts'
      cases hts'
      constructor
      · exact lookup_filter_out _ _
      · exact List.getElem?_set_self (getElem?_some_lt hph)
    | waitDone cid' c r hph' hc hr =>
      rw [hph] at hph'
      cases hph'
  · intro s s' t ts hstep hph hts hfl
    cases hstep with
    | enterNew ts' hts' hph' hfl' =>
      rw [hts] at hts'
      cases hts'
      rfl
    | enterWait ts' cid' hts' hph' hfl' =>
      rw [hts] at hts'
      cases hts'
      rw [hfl] at hfl'
      cases hfl'
    | finishFn ts' cid' c hts' hph' hc =>
      rw [hph] at hph'
      cases hph'
    | deleteKey ts' cid' hts' hph' =>
      rw [hph] at hph'
      cases hph'
    | waitDone cid' c r hph' hc hr =>
      rw [hph] at hph'
      cases hph'
  · intro s s' t cid ts hstep hph hts hfl
    cases hstep with
    | enterNew ts' hts' hph' hfl' =>
      rw [hts] at hts'
      cases hts'
      rw [hfl] at hfl'
      cases hfl'
    | enterWait ts' cid' hts' hph' hfl' =>
      rw [hts] at hts'
      cases hts'
      rw [hfl] at hfl'
      cases hfl'
      rfl
    | finishFn ts' cid' c hts' hph' hc =>
      rw [hph] at hph'
      cases hph'
    | deleteKey ts' cid' hts' hph' =>
      rw [hph] at hph'
      cases hph'
    | waitDone cid' c r hph' hc hr =>
      rw [hph] at hph'
      cases hph'

theorem C7_removal_after_release_witness :
    (⟨[], [⟨some 1, 0⟩],
      [Phase.finished 1, Phase.waiting 0]⟩ : Sys Nat).flights.lookup "k" = none ∧
    (⟨[], [⟨some 1, 0⟩],
      [Phase.finished 1, Phase.waiting 0]⟩ : Sys Nat).phases[0]?
      = some (Phase.finished 1) := by
  have hstep : Step ([⟨"k", 1⟩, ⟨"k", 2⟩] : List (ThreadSpec Nat)) 0
      ⟨[("k", 0)], [⟨some 1, 0⟩], [Phase.deleting 0, Phase.waiting 0]⟩
      ⟨[], [⟨some 1, 0⟩], [Phase.finished 1, Phase.waiting 0]⟩ :=
    Step.deleteKey _ ⟨"k", 1⟩ 0 rfl rfl
  exact (C7_removal_after_release ([⟨"k", 1⟩, ⟨"k", 2⟩] : List (ThreadSpec Nat))).2.1
    ⟨[("k", 0)], [⟨some 1, 0⟩], [Phase.deleting 0, Phase.waiting 0]⟩
    ⟨[], [⟨some 1, 0⟩], [Phase.finished 1, Phase.waiting 0]⟩
    0 0 ⟨"k", 1⟩ hstep rfl rfl

end Singleflight
